import Mathlib

/-!
# daily-md: a verification development over `main.go`

Shallow embedding of the Go program.  Conventions:

* a Go `string` / `[]byte` is a list of byte values (`GoString`, each element
  a number below 256);
* Go `int` is the 64-bit signed integer, embedded in `Int`; `uint` is embedded
  in `Nat` with explicit reduction modulo `2^64`;
* a Go call that can return an error, panic, or stop the process through
  `log.Fatal` returns a `Res`;
* the file system, the wall clock and the scraper are explicit state.
-/

namespace DailyMd

/-! ## Basic data -/

/-- Go strings are byte sequences. -/
abbrev GoString := List Nat

/-- Byte sequence of an ASCII literal of the source text. -/
def lit (s : String) : GoString := s.toList.map Char.toNat

/-- Go `error` values that the program can observe. -/
inductive GoError where
  | errorsNew (text : String)
  | strconvSyntax (fn : String) (input : GoString)
  | strconvRange (fn : String) (input : GoString)
  | os (op : String)
  | jsonError (text : String)
  | colly (text : String)
  deriving DecidableEq, Repr

/-- Outcome of a Go call: normal return, returned error, run-time panic, or
process exit through `log.Fatal`. -/
inductive Res (α : Type) where
  | ok (a : α)
  | err (e : GoError)
  | panic (msg : String)
  | fatal (e : GoError)
  deriving DecidableEq, Repr

/-! ## unicode/utf8 -/

/-- The constant `utf8.RuneError`. -/
def RuneError : Nat := 0xFFFD

/-- Returns true for `locb <= b <= hicb`, the range of continuation bytes. -/
def isCont (b : Nat) : Bool := 0x80 ≤ b && b ≤ 0xBF

/-- Model of `utf8.DecodeRune` / `utf8.DecodeRuneInString`: the first rune of
`s` and its width in bytes; `(RuneError, 0)` on empty input and
`(RuneError, 1)` on an invalid or truncated encoding.  The table `first` and
`acceptRanges` of the library are unfolded into explicit byte ranges. -/
def DecodeRune : GoString → Nat × Nat
  | [] => (RuneError, 0)
  | s0 :: rest =>
    if s0 < 0x80 then (s0, 1)
    else if s0 < 0xC2 then (RuneError, 1)
    else if s0 < 0xE0 then
      match rest with
      | s1 :: _ => if isCont s1 then ((s0 % 32) * 64 + s1 % 64, 2) else (RuneError, 1)
      | _ => (RuneError, 1)
    else if s0 < 0xF0 then
      match rest with
      | s1 :: s2 :: _ =>
        let lo := if s0 = 0xE0 then 0xA0 else 0x80
        let hi := if s0 = 0xED then 0x9F else 0xBF
        if s1 < lo || hi < s1 then (RuneError, 1)
        else if !isCont s2 then (RuneError, 1)
        else ((s0 % 16) * 4096 + (s1 % 64) * 64 + s2 % 64, 3)
      | _ => (RuneError, 1)
    else if s0 < 0xF5 then
      match rest with
      | s1 :: s2 :: s3 :: _ =>
        let lo := if s0 = 0xF0 then 0x90 else 0x80
        let hi := if s0 = 0xF4 then 0x8F else 0xBF
        if s1 < lo || hi < s1 then (RuneError, 1)
        else if !isCont s2 then (RuneError, 1)
        else if !isCont s3 then (RuneError, 1)
        else ((s0 % 8) * 262144 + (s1 % 64) * 4096 + (s2 % 64) * 64 + s3 % 64, 4)
      | _ => (RuneError, 1)
    else (RuneError, 1)

/-- Model of `utf8.AppendRune(nil, r)` for a non-negative rune. -/
def EncodeRune (r : Nat) : GoString :=
  if r < 0x80 then [r]
  else if r ≤ 0x7FF then [0xC0 + r / 64, 0x80 + r % 64]
  else if r > 0x10FFFF || (0xD800 ≤ r && r ≤ 0xDFFF) then [0xEF, 0xBF, 0xBD]
  else if r ≤ 0xFFFF then [0xE0 + r / 4096, 0x80 + r / 64 % 64, 0x80 + r % 64]
  else [0xF0 + r / 262144, 0x80 + r / 4096 % 64, 0x80 + r / 64 % 64, 0x80 + r % 64]

/-- Splits `s` into its UTF-8 sequences (an invalid byte is a sequence of its
own); `fuel` bounds the number of sequences. -/
def runeChunks : Nat → GoString → List GoString
  | 0, _ => []
  | _, [] => []
  | fuel + 1, s =>
    let size := (DecodeRune s).2
    s.take size :: runeChunks fuel (s.drop size)

/-! ## strings -/

/-- Model of `strings.Index`: byte offset of the first occurrence of `sep`. -/
def stringsIndex (sep : GoString) : GoString → Option Nat
  | [] => if sep.isEmpty then some 0 else none
  | c :: rest =>
    if sep.isPrefixOf (c :: rest) then some 0
    else (stringsIndex sep rest).map (· + 1)

/-- Loop of `strings.genSplit` for a non-empty separator: cut at the first
occurrence of `sep`, continue on what follows it. -/
def splitLoop (sep : GoString) : Nat → GoString → List GoString
  | 0, s => [s]
  | fuel + 1, s =>
    match stringsIndex sep s with
    | none => [s]
    | some m => s.take m :: splitLoop sep fuel (s.drop (m + sep.length))

/-- Model of `strings.Split(s, sep)`.  An empty separator explodes `s` into
its UTF-8 sequences. -/
def stringsSplit (s sep : GoString) : List GoString :=
  if sep.isEmpty then runeChunks s.length s
  else splitLoop sep s.length s

/-- Loop of `strings.Replace` for a non-empty `old`: copy up to the next
occurrence, emit `new`, continue behind the occurrence. -/
def replaceLoop (old new : GoString) : Nat → GoString → GoString
  | 0, s => s
  | fuel + 1, s =>
    match stringsIndex old s with
    | none => s
    | some j => s.take j ++ new ++ replaceLoop old new fuel (s.drop (j + old.length))

/-- Model of `strings.Replace(s, old, new, -1)`.  With an empty `old` the
replacement is inserted before every UTF-8 sequence and at the end. -/
def stringsReplaceAll (s old new : GoString) : GoString :=
  if old.isEmpty then
    ((runeChunks s.length s).map (fun chunk => new ++ chunk)).flatten ++ new
  else replaceLoop old new s.length s

/-! ## strconv -/

/-- Digit loop of the fast path of `strconv.Atoi`: `none` on a byte that is
not a decimal digit. -/
def atoiFastLoop : GoString → Int → Option Int
  | [], n => some n
  | ch :: rest, n =>
    if 48 ≤ ch ∧ ch ≤ 57 then atoiFastLoop rest (n * 10 + ((ch - 48 : Nat) : Int))
    else none

/-- Result of the digit loop of `strconv.ParseUint(s, 10, 64)`. -/
inductive UintScan where
  | value (n : Nat)
  | syntaxErr
  | rangeErr
  deriving DecidableEq, Repr

/-- Digit loop of `strconv.ParseUint` with base 10 and bit size 64: a syntax
error on a byte that is not a decimal digit, a range error as soon as the
accumulated value leaves `uint64`. -/
def parseUintLoop : GoString → Nat → UintScan
  | [], n => .value n
  | c :: rest, n =>
    if 48 ≤ c ∧ c ≤ 57 then
      if n ≥ (2 ^ 64 - 1) / 10 + 1 then .rangeErr
      else if n * 10 + (c - 48) ≥ 2 ^ 64 then .rangeErr
      else parseUintLoop rest (n * 10 + (c - 48))
    else .syntaxErr

/-- Model of `strconv.ParseInt(s, 10, 0)` on a 64-bit platform. -/
def ParseInt (s : GoString) : Except GoError Int :=
  match s with
  | [] => .error (.strconvSyntax "ParseInt" s)
  | c :: rest =>
    let neg := c = 45
    let digits := if c = 43 ∨ c = 45 then rest else s
    match digits with
    | [] => .error (.strconvSyntax "ParseInt" s)
    | _ =>
      match parseUintLoop digits 0 with
      | .syntaxErr => .error (.strconvSyntax "ParseInt" s)
      | .rangeErr => .error (.strconvRange "ParseInt" s)
      | .value un =>
        if ¬ neg ∧ un ≥ 2 ^ 63 then .error (.strconvRange "ParseInt" s)
        else if neg ∧ un > 2 ^ 63 then .error (.strconvRange "ParseInt" s)
        else .ok (if neg then - (un : Int) else (un : Int))

/-- Model of `strconv.Atoi` on a 64-bit platform (`intSize == 64`): the fast
path for inputs of 1 to 18 bytes, `ParseInt` otherwise.  The value returned
next to an error is not represented. -/
def Atoi (s : GoString) : Except GoError Int :=
  if 0 < s.length ∧ s.length < 19 then
    match s with
    | [] => .error (.strconvSyntax "Atoi" s)
    | s0 :: rest =>
      let digits := if s0 = 45 ∨ s0 = 43 then rest else s
      if (s0 = 45 ∨ s0 = 43) ∧ digits.length < 1 then .error (.strconvSyntax "Atoi" s)
      else
        match atoiFastLoop digits 0 with
        | none => .error (.strconvSyntax "Atoi" s)
        | some n => .ok (if s0 = 45 then -n else n)
  else
    match ParseInt s with
    | .error (.strconvSyntax _ i) => .error (.strconvSyntax "Atoi" i)
    | .error (.strconvRange _ i) => .error (.strconvRange "Atoi" i)
    | .error e => .error e
    | .ok n => .ok n

/-! ## fmt -/

/-- Decimal digits of a natural number as bytes. -/
def decimal (n : Nat) : GoString := (Nat.toDigits 10 n).map Char.toNat

/-- Model of the verb `%02d` of `fmt.Sprintf` applied to an `int`: zero padding
to width 2, the sign counting towards the width. -/
def fmt02d (n : Int) : GoString :=
  let ds := decimal n.natAbs
  if n < 0 then 45 :: (List.replicate (1 - ds.length) 48 ++ ds)
  else List.replicate (2 - ds.length) 48 ++ ds

/-! ## Weather types -/

/-- The type `Date`, a string. -/
abbrev Date := GoString

/-- The type `Hour`, a string of the form `HH:MM`. -/
abbrev Hour := GoString

/-- The type `Time`, a string. -/
abbrev Time := GoString

/-- The type `Temperature` is a `float64`; it is only stored and copied, so it
is represented by its IEEE-754 bit pattern. -/
abbrev Temperature := Nat

/-- Model of `func (h Hour) String() string`. -/
def Hour.String (h : Hour) : Res GoString :=
  match stringsSplit h (lit ":") with
  | [] => .panic "index out of range [0] with length 0"
  | split0 :: tail =>
    match Atoi split0 with
    | .error e => .fatal e
    | .ok hr0 =>
      match tail with
      | [] => .panic "index out of range [1] with length 1"
      | m :: _ =>
        let hr1 := if hr0 = 0 then 12 else hr0
        let hr2 := if hr1 > 12 then hr1 - 12 else hr1
        let suffix := if hr1 > 12 then lit "PM" else lit "AM"
        .ok (fmt02d hr2 ++ lit ":" ++ m ++ lit " " ++ suffix)

/-- A Go slice: the `len` visible elements and the elements of the backing
array between `len` and `cap`. -/
structure Slice (α : Type) where
  elems : List α
  spare : List α
  deriving DecidableEq, Repr

/-- The capacity of a slice. -/
def Slice.cap {α : Type} (s : Slice α) : Nat := s.elems.length + s.spare.length

/-- Slice expression `s[lo:hi]`: `none` stands for the run-time panic
"slice bounds out of range", raised unless `lo <= hi <= cap(s)`. -/
def Slice.reslice {α : Type} (s : Slice α) (lo hi : Nat) : Option (Slice α) :=
  if lo ≤ hi ∧ hi ≤ s.cap then
    some { elems := ((s.elems ++ s.spare).take hi).drop lo,
           spare := (s.elems ++ s.spare).drop hi }
  else none

/-- Conversion `[24]T(s)` of a slice to an array: `none` stands for the panic
raised when the slice is shorter than the array. -/
def Slice.toArray24 {α : Type} (s : Slice α) : Option (List α) :=
  if s.elems.length < 24 then none else some (s.elems.take 24)

/-- The struct `HourlyUnits`. -/
structure HourlyUnits where
  Time : GoString
  TemperatureAtTwoMetres : GoString
  deriving DecidableEq, Repr

/-- The struct `Hourly`: two slices, of time stamps and of temperatures. -/
structure Hourly where
  Time : Slice Time
  TemperatureAtTwoMetres : Slice Temperature
  deriving DecidableEq, Repr

/-- The struct `HourlyWithUnits`. -/
structure HourlyWithUnits where
  Units : HourlyUnits
  Hourly : Hourly
  deriving DecidableEq, Repr

/-- The struct `Day`; the arrays `[24]Time` and `[24]Temperature` are lists,
of length 24 whenever built by `getDay`. -/
structure Day where
  Units : HourlyUnits
  Times : List Time
  Temps : List Temperature
  deriving DecidableEq, Repr

/-- Model of `func (h *HourlyWithUnits) getDay(day uint) (Day, error)`.  The
argument is a `uint`, so `day < 0` never holds; index arithmetic is modulo
`2^64`. -/
def HourlyWithUnits.getDay (h : HourlyWithUnits) (day : Nat) : Res Day :=
  if day < 0 ∨ day > 4 then .err (.errorsNew "day must be between 0 and 4")
  else
    let lo := (day * 24) % 2 ^ 64
    let hi := ((day + 1) * 24) % 2 ^ 64
    match h.Hourly.Time.reslice lo hi with
    | none => .panic "slice bounds out of range"
    | some ts =>
      match ts.toArray24 with
      | none => .panic "cannot convert slice to array"
      | some times =>
        match h.Hourly.TemperatureAtTwoMetres.reslice lo hi with
        | none => .panic "slice bounds out of range"
        | some vs =>
          match vs.toArray24 with
          | none => .panic "cannot convert slice to array"
          | some temps => .ok { Units := h.Units, Times := times, Temps := temps }

/-- Model of `func (d *Day) get(hour uint) (Time, Temperature, error)`. -/
def Day.get (d : Day) (hour : Nat) : Res (Time × Temperature) :=
  if hour > 23 then .err (.errorsNew "hour is out of range")
  else
    match d.Times[hour]?, d.Temps[hour]? with
    | some t, some v => .ok (t, v)
    | _, _ => .panic "index out of range"

/-! ## Scraper field clean-up -/

/-- Model of `func sanitize(s string) string`. -/
def sanitize (s : GoString) : GoString :=
  let clone := s
  let clone := stringsReplaceAll clone (lit "   ") (lit " ")
  let clone := stringsReplaceAll clone (lit "  ") (lit "")
  let clone := stringsReplaceAll clone (lit "\n") (lit "")
  clone

/-- Model of `func sanitizeTitle(t string) string`. -/
def sanitizeTitle (t : GoString) : GoString :=
  let clone := t
  let clone := stringsReplaceAll clone (lit "\n") (lit " ")
  let clone := stringsReplaceAll clone (lit "    ") (lit " ")
  let clone := stringsReplaceAll clone (lit "   ") (lit " ")
  let clone := stringsReplaceAll clone (lit "  ") (lit " ")
  clone

/-! ## encoding/json: encoder -/

/-- The struct `event`, the cached record. -/
structure event where
  Number : GoString
  Title : GoString
  Venue : GoString
  Date : GoString
  Timestamp : GoString
  deriving DecidableEq, Repr

/-- The struct `payload`, the envelope written to `settings.json`. -/
structure payload where
  UFC : event
  deriving DecidableEq, Repr

/-- Lower-case hexadecimal digit, the table `hex` of the library. -/
def hexDigit (n : Nat) : Nat := if n < 10 then 48 + n else 87 + n

/-- The table `htmlSafeSet`: ASCII bytes that are written without escaping. -/
def htmlSafe (b : Nat) : Bool :=
  0x20 ≤ b && b < 0x80 && b != 34 && b != 92 && b != 60 && b != 62 && b != 38

/-- Escape written for an ASCII byte outside `htmlSafeSet` (current library:
the short forms for backspace and form feed, which older releases wrote as
`u0008` and `u000c` escapes; the decoder reads both alike). -/
def escapeAscii (b : Nat) : GoString :=
  if b = 92 ∨ b = 34 then [92, b]
  else if b = 8 then [92, 98]
  else if b = 12 then [92, 102]
  else if b = 10 then [92, 110]
  else if b = 13 then [92, 114]
  else if b = 9 then [92, 116]
  else [92, 117, 48, 48, hexDigit (b / 16), hexDigit (b % 16)]

/-- One iteration of the loop of `appendString` (with `escapeHTML` set) on the
input `b :: rest`: the bytes written and the input left.  Invalid UTF-8 is
written as the escape of U+FFFD, the runes U+2028 and U+2029 as their
six-byte escapes, any other multi-byte sequence verbatim. -/
def appendStringStep (b : Nat) (rest : GoString) : GoString × GoString :=
  if b < 0x80 then
    (if htmlSafe b then [b] else escapeAscii b, rest)
  else
    let dec := DecodeRune ((b :: rest).take 4)
    if dec.1 = RuneError ∧ dec.2 = 1 then
      ([92, 117, 102, 102, 102, 100], rest)
    else if dec.1 = 0x2028 ∨ dec.1 = 0x2029 then
      ([92, 117, 50, 48, 50, hexDigit (dec.1 % 16)], (b :: rest).drop dec.2)
    else
      ((b :: rest).take dec.2, (b :: rest).drop dec.2)

/-- Loop of `appendString`: the bytes written between the quotes for the
string `s`; `fuel` bounds the number of iterations. -/
def appendStringLoop : Nat → GoString → GoString
  | 0, _ => []
  | _, [] => []
  | fuel + 1, b :: rest =>
    (appendStringStep b rest).1 ++ appendStringLoop fuel (appendStringStep b rest).2

/-- Model of `appendString`: the JSON string literal for `s`. -/
def appendString (s : GoString) : GoString :=
  34 :: appendStringLoop s.length s ++ [34]

/-- Model of `json.Marshal` on a `payload`; it cannot fail for this type. -/
def jsonMarshal (p : payload) : GoString :=
  lit "\x7b\"UFC\":\x7b\"number\":" ++ appendString p.UFC.Number
    ++ lit ",\"title\":" ++ appendString p.UFC.Title
    ++ lit ",\"venue\":" ++ appendString p.UFC.Venue
    ++ lit ",\"date\":" ++ appendString p.UFC.Date
    ++ lit ",\"timestamp\":" ++ appendString p.UFC.Timestamp
    ++ lit "\x7d\x7d"

/-! ## encoding/json: decoder -/

/-- Syntax tree of a JSON text; string literals and keys keep their raw
bytes (what stands between the quotes). -/
inductive JValue where
  | null
  | bool (b : Bool)
  | number
  | string (raw : GoString)
  | array (items : List JValue)
  | object (members : List (GoString × JValue))

/-- The scanner's `isSpace`. -/
def isSpace (c : Nat) : Bool := c = 32 || c = 9 || c = 13 || c = 10

/-- Drops leading white space. -/
def skipSpace : GoString → GoString
  | [] => []
  | c :: rest => if isSpace c then skipSpace rest else c :: rest

/-- Decimal digit bytes. -/
def isDigit (c : Nat) : Bool := 48 ≤ c && c ≤ 57

/-- Hexadecimal digit bytes, either case. -/
def isHex (c : Nat) : Bool :=
  (48 ≤ c && c ≤ 57) || (97 ≤ c && c ≤ 102) || (65 ≤ c && c ≤ 70)

/-- The scanner states inside a string literal. -/
inductive StrState where
  | inString
  | inStringEsc
  | inStringEscU
  | inStringEscU1
  | inStringEscU12
  | inStringEscU123
  deriving DecidableEq, Repr

/-- The scanner inside a string literal, one byte per step (the functions
`stateInString`, `stateInStringEsc`, `stateInStringEscU` to
`stateInStringEscU123`): returns the raw bytes up to the closing quote and
the input behind it, `none` on an invalid byte or at the end of input. -/
def scanStringFrom : StrState → GoString → Option (GoString × GoString)
  | _, [] => none
  | .inString, c :: rest =>
    if c = 34 then some ([], rest)
    else if c = 92 then (scanStringFrom .inStringEsc rest).map (fun r => (c :: r.1, r.2))
    else if c < 0x20 then none
    else (scanStringFrom .inString rest).map (fun r => (c :: r.1, r.2))
  | .inStringEsc, c :: rest =>
    if c = 98 ∨ c = 102 ∨ c = 110 ∨ c = 114 ∨ c = 116 ∨ c = 92 ∨ c = 47 ∨ c = 34 then
      (scanStringFrom .inString rest).map (fun r => (c :: r.1, r.2))
    else if c = 117 then (scanStringFrom .inStringEscU rest).map (fun r => (c :: r.1, r.2))
    else none
  | .inStringEscU, c :: rest =>
    if isHex c then (scanStringFrom .inStringEscU1 rest).map (fun r => (c :: r.1, r.2))
    else none
  | .inStringEscU1, c :: rest =>
    if isHex c then (scanStringFrom .inStringEscU12 rest).map (fun r => (c :: r.1, r.2))
    else none
  | .inStringEscU12, c :: rest =>
    if isHex c then (scanStringFrom .inStringEscU123 rest).map (fun r => (c :: r.1, r.2))
    else none
  | .inStringEscU123, c :: rest =>
    if isHex c then (scanStringFrom .inString rest).map (fun r => (c :: r.1, r.2))
    else none

/-- Reads a string literal whose opening quote has been consumed. -/
def scanString (s : GoString) : Option (GoString × GoString) :=
  scanStringFrom .inString s

/-- Drops leading decimal digits. -/
def skipDigits : GoString → GoString
  | [] => []
  | c :: rest => if isDigit c then skipDigits rest else c :: rest

/-- Scanner states `stateE`, `stateESign`, `stateE0`: the optional exponent. -/
def scanExp : GoString → Option GoString
  | [] => some []
  | c :: rest =>
    if c = 101 ∨ c = 69 then
      match rest with
      | [] => none
      | d :: rest1 =>
        if d = 43 ∨ d = 45 then
          match rest1 with
          | [] => none
          | e :: rest2 => if isDigit e then some (skipDigits rest2) else none
        else if isDigit d then some (skipDigits rest1)
        else none
    else some (c :: rest)

/-- Scanner states `stateDot`, `stateDot0`: the optional fraction. -/
def scanFrac : GoString → Option GoString
  | 46 :: rest =>
    match rest with
    | [] => none
    | c :: rest1 => if isDigit c then scanExp (skipDigits rest1) else none
  | s => scanExp s

/-- Scanner states `stateNeg`, `state0`, `state1`: a number literal; returns
the input behind it. -/
def scanNumber (s : GoString) : Option GoString :=
  let body := match s with
    | 45 :: rest => rest
    | _ => s
  match body with
  | [] => none
  | c :: rest =>
    if c = 48 then scanFrac rest
    else if 49 ≤ c ∧ c ≤ 57 then scanFrac (skipDigits rest)
    else none

/-- The constant `maxNestingDepth` of the scanner. -/
def maxNestingDepth : Nat := 10000

mutual
/-- Reads one JSON value; `depth` is the number of open arrays and objects. -/
def parseValue : Nat → Nat → GoString → Option (JValue × GoString)
  | 0, _, _ => none
  | fuel + 1, depth, s =>
    match skipSpace s with
    | [] => none
    | c :: rest =>
      if c = 123 then
        if depth ≥ maxNestingDepth then none
        else if (skipSpace rest).head? = some 125 then some (.object [], (skipSpace rest).tail)
        else (parseMembers fuel (depth + 1) rest).map (fun r => (.object r.1, r.2))
      else if c = 91 then
        if depth ≥ maxNestingDepth then none
        else if (skipSpace rest).head? = some 93 then some (.array [], (skipSpace rest).tail)
        else (parseElems fuel (depth + 1) rest).map (fun r => (.array r.1, r.2))
      else if c = 34 then (scanString rest).map (fun r => (.string r.1, r.2))
      else if c = 45 ∨ isDigit c then (scanNumber (c :: rest)).map (fun r => (.number, r))
      else if (lit "true").isPrefixOf (c :: rest) then some (.bool true, rest.drop 3)
      else if (lit "false").isPrefixOf (c :: rest) then some (.bool false, rest.drop 4)
      else if (lit "null").isPrefixOf (c :: rest) then some (.null, rest.drop 3)
      else none
/-- Reads the members of an object up to and including the closing brace. -/
def parseMembers : Nat → Nat → GoString → Option (List (GoString × JValue) × GoString)
  | 0, _, _ => none
  | fuel + 1, depth, s =>
    match skipSpace s with
    | [] => none
    | q :: rest =>
      if q = 34 then
        match scanString rest with
        | none => none
        | some (key, rest1) =>
          match skipSpace rest1 with
          | [] => none
          | colon :: rest2 =>
            if colon = 58 then
              match parseValue fuel depth rest2 with
              | none => none
              | some (v, rest3) =>
                match skipSpace rest3 with
                | [] => none
                | d :: rest4 =>
                  if d = 44 then
                    (parseMembers fuel depth rest4).map (fun r => ((key, v) :: r.1, r.2))
                  else if d = 125 then some ([(key, v)], rest4)
                  else none
            else none
      else none
/-- Reads the elements of an array up to and including the closing bracket. -/
def parseElems : Nat → Nat → GoString → Option (List JValue × GoString)
  | 0, _, _ => none
  | fuel + 1, depth, s =>
    match parseValue fuel depth s with
    | none => none
    | some (v, rest) =>
      match skipSpace rest with
      | [] => none
      | d :: rest1 =>
        if d = 44 then (parseElems fuel depth rest1).map (fun r => (v :: r.1, r.2))
        else if d = 93 then some ([v], rest1)
        else none
end

/-- Model of `checkValid` together with the structure the decoder then walks:
the syntax tree of `data`, or `none` on a syntax error (empty input, trailing
bytes other than white space, nesting beyond `maxNestingDepth`).  The fuel
`2 * len + 2` bounds the length of any chain of nested reads. -/
def jsonParse (data : GoString) : Option JValue :=
  match parseValue (2 * data.length + 2) 0 data with
  | none => none
  | some (v, rest) => if (skipSpace rest).isEmpty then some v else none

/-- Value of a hexadecimal digit. -/
def hexVal (c : Nat) : Nat :=
  if 48 ≤ c ∧ c ≤ 57 then c - 48
  else if 97 ≤ c ∧ c ≤ 102 then c - 97 + 10
  else c - 65 + 10

/-- Model of `getu4`: the code unit of a `\uXXXX` escape at the head of `s`. -/
def getu4 : GoString → Option Nat
  | 92 :: 117 :: h1 :: h2 :: h3 :: h4 :: _ =>
    if isHex h1 && isHex h2 && isHex h3 && isHex h4 then
      some (hexVal h1 * 4096 + hexVal h2 * 256 + hexVal h3 * 16 + hexVal h4)
    else none
  | _ => none

/-- Model of `utf16.DecodeRune`. -/
def utf16DecodeRune (r1 r2 : Nat) : Nat :=
  if 0xD800 ≤ r1 ∧ r1 < 0xDC00 ∧ 0xDC00 ≤ r2 ∧ r2 < 0xE000 then
    (r1 - 0xD800) * 1024 + (r2 - 0xDC00) + 0x10000
  else RuneError

/-- One iteration of the first loop of `unquoteBytes` on `c :: rest`: the
width of the sequence at the head if it needs no unquoting, `none` at a
backslash, quote, control byte or invalid UTF-8. -/
def plainStep (c : Nat) (rest : GoString) : Option Nat :=
  if c = 92 ∨ c = 34 ∨ c < 32 then none
  else if c < 0x80 then some 1
  else
    let dec := DecodeRune (c :: rest)
    if dec.1 = RuneError ∧ dec.2 = 1 then none
    else some dec.2

/-- First loop of `unquoteBytes`: number of leading bytes that need no
unquoting. -/
def plainPrefix : Nat → GoString → Nat
  | 0, _ => 0
  | _, [] => 0
  | fuel + 1, c :: rest =>
    match plainStep c rest with
    | none => 0
    | some k => k + plainPrefix fuel ((c :: rest).drop k)

/-- The case `'u'` of `unquoteBytes`; `s` starts at the backslash.  A high
surrogate followed by the escape of a low surrogate gives one rune; any other
surrogate gives U+FFFD. -/
def unquoteU (s : GoString) : Option (GoString × GoString) :=
  match getu4 s with
  | none => none
  | some rr =>
    let after := s.drop 6
    if 0xD800 ≤ rr ∧ rr < 0xE000 then
      let dec := match getu4 after with
        | some rr1 => utf16DecodeRune rr rr1
        | none => RuneError
      if dec ≠ RuneError then some (EncodeRune dec, after.drop 6)
      else some (EncodeRune RuneError, after)
    else some (EncodeRune rr, after)

/-- The case of a backslash in `unquoteBytes`; `e` is the byte behind it and
`rest1` what follows. -/
def unquoteEscape (e : Nat) (rest1 : GoString) : Option (GoString × GoString) :=
  if e = 34 ∨ e = 92 ∨ e = 47 ∨ e = 39 then some ([e], rest1)
  else if e = 98 then some ([8], rest1)
  else if e = 102 then some ([12], rest1)
  else if e = 110 then some ([10], rest1)
  else if e = 114 then some ([13], rest1)
  else if e = 116 then some ([9], rest1)
  else if e = 117 then unquoteU (92 :: e :: rest1)
  else none

/-- One iteration of the second loop of `unquoteBytes` on `c :: rest`: the
bytes produced and the input left; `none` on a malformed literal. -/
def unquoteStep (c : Nat) (rest : GoString) : Option (GoString × GoString) :=
  if c = 92 then
    match rest with
    | [] => none
    | e :: rest1 => unquoteEscape e rest1
  else if c = 34 ∨ c < 32 then none
  else if c < 0x80 then some ([c], rest)
  else
    let dec := DecodeRune (c :: rest)
    some (EncodeRune dec.1, (c :: rest).drop dec.2)

/-- Second loop of `unquoteBytes`: resolves escapes and coerces the bytes to
well-formed UTF-8; `none` on a malformed literal. -/
def unquoteLoop : Nat → GoString → Option GoString
  | _, [] => some []
  | 0, _ :: _ => none
  | fuel + 1, c :: rest =>
    match unquoteStep c rest with
    | none => none
    | some (out, left) => (unquoteLoop fuel left).map (out ++ ·)

/-- Model of `unquoteBytes` on the raw bytes of a literal (quotes removed). -/
def unquoteBytes (s : GoString) : Option GoString :=
  let r := plainPrefix s.length s
  if r = s.length then some s
  else (unquoteLoop s.length (s.drop r)).map (s.take r ++ ·)

/-- Case folding of an object key as far as it can reach an ASCII field name:
`a`–`z` fold to `A`–`Z`, and the only other runes whose simple case folding
orbit contains an ASCII letter are U+017F (with `s`) and U+212A (with `k`).
The first argument counts bytes of a folded sequence still to be skipped. -/
def foldNameAux : Nat → GoString → GoString
  | _, [] => []
  | skip + 1, _ :: rest => foldNameAux skip rest
  | 0, c :: rest =>
    if c = 0xC5 ∧ rest.take 1 = [0xBF] then 83 :: foldNameAux 1 rest
    else if c = 0xE2 ∧ rest.take 2 = [0x84, 0xAA] then 75 :: foldNameAux 2 rest
    else (if 97 ≤ c ∧ c ≤ 122 then c - 32 else c) :: foldNameAux 0 rest

/-- Model of `foldName` restricted as described at `foldNameAux`. -/
def foldName (s : GoString) : GoString := foldNameAux 0 s

/-- Field lookup of the decoder: exact name first, folded name otherwise. -/
def fieldMatches (key name : GoString) : Bool :=
  key = name || foldName key = foldName name

/-- Decoding of a JSON value into a Go `string` field: a string literal is
stored, `null` leaves the field alone, anything else is an
`UnmarshalTypeError`. -/
def decodeStringField (v : JValue) (cur : GoString) : Option GoString :=
  match v with
  | .string raw => unquoteBytes raw
  | .null => some cur
  | _ => none

/-- Decoding of the members of an object into the struct `event`. -/
def decodeEventMembers : List (GoString × JValue) → event → Option event
  | [], cur => some cur
  | (rawKey, v) :: rest, cur =>
    match unquoteBytes rawKey with
    | none => none
    | some key =>
      if fieldMatches key (lit "number") then
        match decodeStringField v cur.Number with
        | none => none
        | some s => decodeEventMembers rest { cur with Number := s }
      else if fieldMatches key (lit "title") then
        match decodeStringField v cur.Title with
        | none => none
        | some s => decodeEventMembers rest { cur with Title := s }
      else if fieldMatches key (lit "venue") then
        match decodeStringField v cur.Venue with
        | none => none
        | some s => decodeEventMembers rest { cur with Venue := s }
      else if fieldMatches key (lit "date") then
        match decodeStringField v cur.Date with
        | none => none
        | some s => decodeEventMembers rest { cur with Date := s }
      else if fieldMatches key (lit "timestamp") then
        match decodeStringField v cur.Timestamp with
        | none => none
        | some s => decodeEventMembers rest { cur with Timestamp := s }
      else decodeEventMembers rest cur

/-- Decoding of a JSON value into the struct `event`. -/
def decodeEvent (v : JValue) (cur : event) : Option event :=
  match v with
  | .object members => decodeEventMembers members cur
  | .null => some cur
  | _ => none

/-- Decoding of the members of an object into the struct `payload`. -/
def decodePayloadMembers : List (GoString × JValue) → payload → Option payload
  | [], cur => some cur
  | (rawKey, v) :: rest, cur =>
    match unquoteBytes rawKey with
    | none => none
    | some key =>
      if fieldMatches key (lit "UFC") then
        match decodeEvent v cur.UFC with
        | none => none
        | some e => decodePayloadMembers rest { cur with UFC := e }
      else decodePayloadMembers rest cur

/-- Decoding of a JSON value into the struct `payload`. -/
def decodePayload (v : JValue) (cur : payload) : Option payload :=
  match v with
  | .object members => decodePayloadMembers members cur
  | .null => some cur
  | _ => none

/-- Model of `json.Unmarshal(data, &ptr)` for `ptr : payload`.  On an error the
library leaves a partly filled `ptr` behind; the only caller discards it, so
the model returns the error alone. -/
def jsonUnmarshal (data : GoString) (ptr : payload) : Except GoError payload :=
  match jsonParse data with
  | none => .error (.jsonError "syntax error")
  | some v =>
    match decodePayload v ptr with
    | none => .error (.jsonError "cannot unmarshal into Go value")
    | some p => .ok p

/-- The zero value `event{}`. -/
def event.zero : event := ⟨[], [], [], [], []⟩

/-- The zero value `payload{}`. -/
def payload.zero : payload := ⟨event.zero⟩

/-- Model of `convertBytesToPayload`: the error of `json.Unmarshal` is
swallowed, the result is then the zero payload with a nil error. -/
def convertBytesToPayload (bytes : GoString) : payload :=
  match jsonUnmarshal bytes payload.zero with
  | .error _ => payload.zero
  | .ok ptr => ptr

/-! ## The settings file, the clock and the scraper -/

/-- The part of the file system the program touches: the file
`settings.json` and whether each kind of operation on it fails. -/
structure Disk where
  file : Option GoString
  openFails : Bool
  createFails : Bool
  readFails : Bool
  closeFails : Bool
  removeFails : Bool
  writeFails : Bool
  deriving DecidableEq, Repr

/-- Mutable state of a run: the disk, how often the clock was read, how often
the scraper visited a page, and how often `writeSettingsFile` was called. -/
structure State where
  disk : Disk
  clockReads : Nat
  visitCount : Nat
  writes : Nat
  deriving DecidableEq, Repr

/-- What one element matched by the `OnHTML` selector yields. -/
structure Scraped where
  title : GoString
  dateAndTime : GoString
  venue : GoString
  timestamp : GoString
  deriving DecidableEq, Repr

/-- Outcome of `c.Visit(url)`: the elements for which the `OnHTML` callback
ran, in order, and the error returned, if any. -/
structure Visit where
  matched : List Scraped
  err : Option GoError
  deriving DecidableEq, Repr

/-- The environment: `clock k` is the value of `time.Now().Unix()` at the
`k`-th reading, `visit k url` the outcome of the `k`-th call of `c.Visit`. -/
structure Env where
  clock : Nat → Int
  visit : Nat → GoString → Visit

/-- Model of `getSettingsFileBytes("settings.json")`. -/
def getSettingsFileBytes (st : State) : Res GoString × State :=
  let d := st.disk
  let opened : Option Disk :=
    if d.file.isSome ∧ d.openFails = false then some d
    else if d.createFails then none
    else some { d with file := some [] }
  match opened with
  | none => (.err (.os "create"), st)
  | some d1 =>
    let st1 := { st with disk := d1 }
    if d1.closeFails then (.fatal (.os "close"), st1)
    else if d1.readFails then (.err (.os "read"), st1)
    else (.ok (d1.file.getD []), st1)

/-- Model of `os.WriteFile("settings.json", data, 0644)`. -/
def osWriteFile (d : Disk) (data : GoString) : Option GoError × Disk :=
  if d.writeFails then (some (.os "write"), d)
  else (none, { d with file := some data })

/-- Model of `clearSettingsFile`: the error of `os.Remove` is overwritten. -/
def clearSettingsFile (st : State) : Option GoError × State :=
  let d1 := if st.disk.removeFails then st.disk else { st.disk with file := none }
  let r := osWriteFile d1 []
  (r.1, { st with disk := r.2 })

/-- Model of `writeSettingsFile("settings.json", settings)`: the errors of
`clearSettingsFile` and of `json.Marshal` are overwritten. -/
def writeSettingsFile (settings : payload) (st : State) : Option GoError × State :=
  let st1 := (clearSettingsFile st).2
  let jsonData := jsonMarshal settings
  let r := osWriteFile st1.disk jsonData
  (r.1, { st1 with disk := r.2, writes := st1.writes + 1 })

/-- Model of `readSettingsFile("settings.json")`. -/
def readSettingsFile (st : State) : Res payload × State :=
  match getSettingsFileBytes st with
  | (.ok byteValue, st1) => (.ok (convertBytesToPayload byteValue), st1)
  | (.err e, st1) => (.err e, st1)
  | (.panic m, st1) => (.panic m, st1)
  | (.fatal e, st1) => (.fatal e, st1)

/-- Model of `checkIfNeedGetUFC`.  The Go function returns `(true, err)` on a
read failure; the boolean next to a non-nil error is never used and is not
represented. -/
def checkIfNeedGetUFC (env : Env) (ufc : event) (st : State) : Res Bool × State :=
  match readSettingsFile st with
  | (.err e, st1) => (.err e, st1)
  | (.panic m, st1) => (.panic m, st1)
  | (.fatal e, st1) => (.fatal e, st1)
  | (.ok _, st1) =>
    match Atoi ufc.Timestamp with
    | .error _ => (.ok true, st1)
    | .ok tsNum =>
      let currentTime := env.clock st1.clockReads
      let st2 := { st1 with clockReads := st1.clockReads + 1 }
      if currentTime < tsNum then (.ok false, st2)
      else (.ok true, st2)

/-- Model of `updateUFCDetails`: the result is the returned error (`none` for
nil), or a process exit.  The error of the first `readSettingsFile` is
overwritten; `existing` is then the zero payload. -/
def updateUFCDetails (env : Env) (ufc : event) (st : State) : Res Unit × State :=
  match readSettingsFile st with
  | (.panic m, st1) => (.panic m, st1)
  | (.fatal e, st1) => (.fatal e, st1)
  | (r, st1) =>
    let existing := match r with
      | .ok p => p
      | _ => payload.zero
    match checkIfNeedGetUFC env ufc st1 with
    | (.err e, st2) => (.err e, st2)
    | (.panic m, st2) => (.panic m, st2)
    | (.fatal e, st2) => (.fatal e, st2)
    | (.ok need, st2) =>
      if need = false ∧ existing.UFC.Number = ufc.Number then (.ok (), st2)
      else
        match writeSettingsFile { UFC := ufc } st2 with
        | (some e, st3) => (.err e, st3)
        | (none, st3) => (.ok (), st3)

/-- The captured variables after `c.Visit`: `"None"` each, overwritten by the
callback for every matched element. -/
def captured (v : Visit) : Scraped :=
  v.matched.foldl (fun _ m => m) ⟨lit "None", lit "None", lit "None", lit "None"⟩

/-- Model of `getUFCDetails`, the deferred call of `updateUFCDetails`
included. -/
def getUFCDetails (env : Env) (st : State) : Res event × State :=
  match readSettingsFile st with
  | (.err e, st1) => (.err e, st1)
  | (.panic m, st1) => (.panic m, st1)
  | (.fatal e, st1) => (.fatal e, st1)
  | (.ok ptr, st1) =>
    match checkIfNeedGetUFC env ptr.UFC st1 with
    | (.err e, st2) => (.err e, st2)
    | (.panic m, st2) => (.panic m, st2)
    | (.fatal e, st2) => (.fatal e, st2)
    | (.ok need, st2) =>
      if need = false then (.ok ptr.UFC, st2)
      else
        let number := if ptr.UFC.Number = [] then lit "316" else ptr.UFC.Number
        let url := lit "https://www.ufc.com/event/ufc-" ++ number
        let v := env.visit st2.visitCount url
        let st3 := { st2 with visitCount := st2.visitCount + 1 }
        match v.err with
        | some e => (.err e, st3)
        | none =>
          let c := captured v
          let UFCEvent : event :=
            { Title := sanitizeTitle c.title,
              Number := number,
              Venue := sanitize c.venue,
              Date := sanitize c.dateAndTime,
              Timestamp := sanitize c.timestamp }
          match updateUFCDetails env UFCEvent st3 with
          | (.ok _, st4) => (.ok UFCEvent, st4)
          | (.err e, st4) => (.fatal e, st4)
          | (.panic m, st4) => (.panic m, st4)
          | (.fatal e, st4) => (.fatal e, st4)

/-- Two consecutive calls of `getUFCDetails`; the second starts in the state
the first one left. -/
def refreshTwice (env : Env) (st : State) : (Res event × Res event) × State :=
  let r1 := getUFCDetails env st
  let r2 := getUFCDetails env r1.2
  ((r1.1, r2.1), r2.2)

/-! ## Helpers for stating the properties -/

/-- Two-digit decimal rendering, as in an hour token `HH`. -/
def twoDigits (n : Nat) : GoString := [48 + n / 10, 48 + n % 10]

/-- Number of spaces that `sanitize` leaves of a maximal run of `n` spaces:
every three spaces become one, then every two of what is left are removed.
A single space stays, two spaces leave none, three spaces leave one. -/
def runImage (n : Nat) : Nat := (n / 3 + n % 3) % 2

/-- The rewriting named in the property of `sanitize`, stated run by run and
independently of `strings.Replace`: every newline is dropped, every maximal
run of `n` spaces is replaced by `runImage n` spaces, every other byte is
kept.  The first argument counts the spaces of the run being read. -/
def sanitizeByRuns : Nat → GoString → GoString
  | n, [] => List.replicate (runImage n) 32
  | n, c :: rest =>
    if c = 32 then sanitizeByRuns (n + 1) rest
    else List.replicate (runImage n) 32
      ++ (if c = 10 then sanitizeByRuns 0 rest else c :: sanitizeByRuns 0 rest)

/-- Rewriting of every maximal run of `n` spaces into `img n` spaces, all
other bytes kept; the first argument counts the spaces of the run being
read. -/
def mapRuns (img : Nat → Nat) : Nat → GoString → GoString
  | n, [] => List.replicate (img n) 32
  | n, c :: rest =>
    if c = 32 then mapRuns img (n + 1) rest
    else List.replicate (img n) 32 ++ c :: mapRuns img 0 rest

/-- A healthy disk: no operation on `settings.json` fails. -/
def Disk.healthy (d : Disk) : Prop :=
  d.openFails = false ∧ d.createFails = false ∧ d.readFails = false ∧
  d.closeFails = false ∧ d.removeFails = false ∧ d.writeFails = false

instance (d : Disk) : Decidable d.healthy := by
  unfold Disk.healthy
  infer_instance

/-- The record the store holds: what `convertBytesToPayload` makes of the
file, an absent file counting as an empty one. -/
def Disk.record (d : Disk) : event := (convertBytesToPayload (d.file.getD [])).UFC

/-- The address `getUFCDetails` visits when the stored record is `r`. -/
def fetchUrl (r : event) : GoString :=
  lit "https://www.ufc.com/event/ufc-" ++ (if r.Number = [] then lit "316" else r.Number)

/-- The event `getUFCDetails` builds from the stored record `r` and the
outcome `v` of the visit. -/
def fetchedEvent (r : event) (v : Visit) : event :=
  { Title := sanitizeTitle (captured v).title,
    Number := if r.Number = [] then lit "316" else r.Number,
    Venue := sanitize (captured v).venue,
    Date := sanitize (captured v).dateAndTime,
    Timestamp := sanitize (captured v).timestamp }

/-- The part of `getUFCDetails` behind the staleness check (the scraper
portion and the deferred update), for the stored record `r` in state `st`. -/
def refreshStale (env : Env) (r : event) (st : State) : Res event × State :=
  match (env.visit st.visitCount (fetchUrl r)).err with
  | some e => (.err e, { st with visitCount := st.visitCount + 1 })
  | none =>
    match updateUFCDetails env (fetchedEvent r (env.visit st.visitCount (fetchUrl r)))
        { st with visitCount := st.visitCount + 1 } with
    | (.ok _, st4) => (.ok (fetchedEvent r (env.visit st.visitCount (fetchUrl r))), st4)
    | (.err e, st4) => (.fatal e, st4)
    | (.panic m, st4) => (.panic m, st4)
    | (.fatal e, st4) => (.fatal e, st4)

/-- Model of `utf8.Valid`: no position at which `DecodeRune` reports an
invalid encoding. -/
def validUTF8 : Nat → GoString → Bool
  | _, [] => true
  | 0, _ :: _ => false
  | fuel + 1, c :: rest =>
    let dec := DecodeRune (c :: rest)
    if dec.1 = RuneError ∧ dec.2 = 1 then false
    else validUTF8 fuel ((c :: rest).drop dec.2)

/-- The string `s` with every byte at which `DecodeRune` reports an invalid
encoding replaced by the encoding of U+FFFD (what `strings.ToValidUTF8`
does with a replacement per byte). -/
def coerceUTF8 : Nat → GoString → GoString
  | _, [] => []
  | 0, _ :: _ => []
  | fuel + 1, c :: rest =>
    let dec := DecodeRune (c :: rest)
    if dec.1 = RuneError ∧ dec.2 = 1 then [0xEF, 0xBF, 0xBD] ++ coerceUTF8 fuel rest
    else (c :: rest).take dec.2 ++ coerceUTF8 fuel ((c :: rest).drop dec.2)

/-- The payload `p` with every string field coerced to valid UTF-8. -/
def coercePayload (p : payload) : payload :=
  { UFC :=
      { Number := coerceUTF8 p.UFC.Number.length p.UFC.Number,
        Title := coerceUTF8 p.UFC.Title.length p.UFC.Title,
        Venue := coerceUTF8 p.UFC.Venue.length p.UFC.Venue,
        Date := coerceUTF8 p.UFC.Date.length p.UFC.Date,
        Timestamp := coerceUTF8 p.UFC.Timestamp.length p.UFC.Timestamp } }

/-- All five string fields of the payload are valid UTF-8. -/
def payload.valid (p : payload) : Bool :=
  validUTF8 p.UFC.Number.length p.UFC.Number &&
  validUTF8 p.UFC.Title.length p.UFC.Title &&
  validUTF8 p.UFC.Venue.length p.UFC.Venue &&
  validUTF8 p.UFC.Date.length p.UFC.Date &&
  validUTF8 p.UFC.Timestamp.length p.UFC.Timestamp

/-! ## Sample inputs -/

/-- A disk without `settings.json` on which every operation succeeds. -/
def emptyDisk : Disk := ⟨none, false, false, false, false, false, false⟩

/-- A healthy disk whose `settings.json` holds the encoding of `e`. -/
def diskHolding (e : event) : Disk := { emptyDisk with file := some (jsonMarshal { UFC := e }) }

/-- The state at process start on the disk `d`. -/
def startOn (d : Disk) : State := ⟨d, 0, 0, 0⟩

/-- An environment whose clock always reads `now` and whose scraper always
has the outcome `v`. -/
def constEnv (now : Int) (v : Visit) : Env := ⟨fun _ => now, fun _ _ => v⟩

/-- A visit that matched one element carrying the time stamp `ts`. -/
def visitWith (ts : GoString) : Visit :=
  ⟨[⟨lit "UFC 316", lit "Sat, Jun 7", lit "Newark", ts⟩], none⟩

/-- A series of 48 hourly samples: the time stamp of sample `i` is the
decimal rendering of `i`, its temperature the bit pattern `1000 + i`. -/
def series48 : HourlyWithUnits :=
  { Units := ⟨lit "iso8601", lit "C"⟩,
    Hourly := ⟨⟨(List.range 48).map decimal, []⟩, ⟨(List.range 48).map (1000 + ·), []⟩⟩ }

/-! ## Day windows -/

theorem reslice_window {α : Type} (s : Slice α) (d : Nat) (h : (d + 1) * 24 ≤ s.elems.length) :
    ∃ w, s.reslice (d * 24) ((d + 1) * 24) = some w ∧ w.elems.length = 24 ∧
      ∀ i, i < 24 → w.elems[i]? = s.elems[d * 24 + i]? := by
  refine ⟨{ elems := ((s.elems ++ s.spare).take ((d + 1) * 24)).drop (d * 24),
             spare := (s.elems ++ s.spare).drop ((d + 1) * 24) }, ?_, ?_, ?_⟩
  · unfold Slice.reslice
    rw [if_pos]
    refine ⟨by omega, ?_⟩
    unfold Slice.cap
    omega
  · simp only [List.length_drop, List.length_take, List.length_append]
    omega
  · intro i hi
    simp only [List.getElem?_drop]
    rw [List.getElem?_take, List.getElem?_append_left (by omega), if_pos (by omega)]

theorem toArray24_window {α : Type} (w : Slice α) (h : w.elems.length = 24) :
    w.toArray24 = some w.elems := by
  unfold Slice.toArray24
  rw [if_neg (by omega)]
  rw [List.take_of_length_le (by omega)]

/-- C6: for a day index below `floor(N/24)` and within the cap of five
windows, `getDay` succeeds with a 24-sample window whose entry `i` is sample
`d*24+i` of the series, unit labels copied. -/
theorem getDay_window (h : HourlyWithUnits) (N d : Nat)
    (hT : h.Hourly.Time.elems.length = N)
    (hV : h.Hourly.TemperatureAtTwoMetres.elems.length = N)
    (hd : d < N / 24) (hcap : d ≤ 4) :
    ∃ day, h.getDay d = .ok day ∧ day.Units = h.Units ∧
      day.Times.length = 24 ∧ day.Temps.length = 24 ∧
      ∀ i, i < 24 →
        d * 24 + i < N ∧
        day.Times[i]? = h.Hourly.Time.elems[d * 24 + i]? ∧
        day.Temps[i]? = h.Hourly.TemperatureAtTwoMetres.elems[d * 24 + i]? := by
  have hb : (d + 1) * 24 ≤ N := by
    have := Nat.div_mul_le_self N 24
    have : (d + 1) * 24 ≤ N / 24 * 24 := Nat.mul_le_mul_right 24 hd
    omega
  obtain ⟨wt, hwt, hlt, hit⟩ := reslice_window h.Hourly.Time d (by omega)
  obtain ⟨wv, hwv, hlv, hiv⟩ := reslice_window h.Hourly.TemperatureAtTwoMetres d (by omega)
  refine ⟨⟨h.Units, wt.elems, wv.elems⟩, ?_, rfl, hlt, hlv, ?_⟩
  · unfold HourlyWithUnits.getDay
    rw [if_neg (by omega)]
    have e1 : d * 24 % 2 ^ 64 = d * 24 := Nat.mod_eq_of_lt (by omega)
    have e2 : (d + 1) * 24 % 2 ^ 64 = (d + 1) * 24 := Nat.mod_eq_of_lt (by omega)
    simp only [e1, e2, hwt, hwv, toArray24_window wt hlt, toArray24_window wv hlv]
  · intro i hi
    exact ⟨by omega, hit i hi, hiv i hi⟩
theorem getDay_window_witness :
    ∃ day, series48.getDay 1 = .ok day ∧ day.Units = series48.Units ∧
      day.Times.length = 24 ∧ day.Temps.length = 24 ∧
      ∀ i, i < 24 →
        1 * 24 + i < 48 ∧
        day.Times[i]? = series48.Hourly.Time.elems[1 * 24 + i]? ∧
        day.Temps[i]? = series48.Hourly.TemperatureAtTwoMetres.elems[1 * 24 + i]? :=
  getDay_window series48 48 1 (by decide) (by decide) (by decide) (by decide)

/-! ## Hour rendering -/

theorem lit_colon : lit ":" = [58] := rfl

theorem lit_space : lit " " = [32] := rfl

theorem lit_AM : lit "AM" = [65, 77] := rfl

theorem lit_PM : lit "PM" = [80, 77] := rfl

theorem lit_space_AM : lit " AM" = [32, 65, 77] := rfl

theorem lit_space_PM : lit " PM" = [32, 80, 77] := rfl

theorem lit_noon : lit "12:" = [49, 50, 58] := rfl

theorem lit_midnight : lit "00:" = [48, 48, 58] := rfl

theorem stringsIndex_none_of_not_mem (c : Nat) (sep s : GoString) (h : c ∉ s) :
    stringsIndex (c :: sep) s = none := by
  induction s with
  | nil => simp [stringsIndex]
  | cons a t ih =>
    simp only [List.mem_cons, not_or] at h
    have hne : (c == a) = false := by simpa using h.1
    simp [stringsIndex, List.isPrefixOf, hne, ih h.2]

theorem stringsIndex_at (c : Nat) (sep u v : GoString) (h : c ∉ u) :
    stringsIndex (c :: sep) (u ++ c :: (sep ++ v)) = some u.length := by
  induction u with
  | nil => simp [stringsIndex, List.isPrefixOf]
  | cons a t ih =>
    simp only [List.mem_cons, not_or] at h
    have hne : (c == a) = false := by simpa using h.1
    simp [stringsIndex, List.isPrefixOf, hne, ih h.2]

theorem stringsSplit_pair (c : Nat) (u v : GoString) (hu : c ∉ u) (hv : c ∉ v) :
    stringsSplit (u ++ c :: v) [c] = [u, v] := by
  have h1 : stringsIndex [c] (u ++ c :: v) = some u.length := by
    have := stringsIndex_at c [] u v hu
    simpa using this
  have h2 : stringsIndex [c] v = none := stringsIndex_none_of_not_mem c [] v hv
  have hlen : (u ++ c :: v).length = (u.length + v.length) + 1 := by simp; omega
  unfold stringsSplit
  simp only [List.isEmpty_cons, Bool.false_eq_true, if_false, hlen, splitLoop, h1]
  have hd : List.drop (u.length + [c].length) (u ++ c :: v) = v := by
    have : u ++ c :: v = (u ++ [c]) ++ v := by simp
    rw [this, List.drop_append_of_le_length (by simp)]
    simp
  rw [hd]
  cases hf : u.length + v.length with
  | zero => simp [splitLoop]
  | succ n => simp [splitLoop, h2]

theorem Atoi_twoDigits (hr : Nat) (h : hr < 24) : Atoi (twoDigits hr) = .ok (hr : Int) := by
  interval_cases hr <;> rfl

theorem twoDigits_no_colon (hr : Nat) (h : hr < 24) : 58 ∉ twoDigits hr := by
  interval_cases hr <;> decide

/-- Rendering of every two-digit hour token. -/
theorem hourString_twoDigits (hr : Nat) (mm : GoString) (hhr : hr < 24) (hmm : 58 ∉ mm) :
    Hour.String (twoDigits hr ++ lit ":" ++ mm) =
      .ok (twoDigits (if hr = 0 then 12 else if 12 < hr then hr - 12 else hr)
            ++ lit ":" ++ mm ++ lit " " ++ (if 12 < hr then lit "PM" else lit "AM")) := by
  have hs : stringsSplit (twoDigits hr ++ lit ":" ++ mm) (lit ":") = [twoDigits hr, mm] := by
    rw [lit_colon]
    have := stringsSplit_pair 58 (twoDigits hr) mm (twoDigits_no_colon hr hhr) hmm
    simpa using this
  unfold Hour.String
  rw [hs]
  simp only [Atoi_twoDigits hr hhr]
  interval_cases hr <;> simp <;> rfl

/-- C7: for an hour token `HH:MM` with `HH` the two-digit decimal of an hour
in 0..23 and a minute field without a colon, `Hour.String` returns
`<hh>:MM <suffix>`: the rendered hour `<hh>` is a number in 1..12 written
with two digits, the minute field is unchanged, and the suffix is `AM` or
`PM`; hour 0 is rendered as `12:MM AM` and an hour in 13..23 as the two-digit
`hour-12` with the suffix `PM`. -/
theorem Hour_String_renders_12_hour_clock (hr : Nat) (mm : GoString)
    (hhr : hr < 24) (hmm : 58 ∉ mm) :
    (∃ hh suffix, 1 ≤ hh ∧ hh ≤ 12 ∧ (suffix = lit "AM" ∨ suffix = lit "PM") ∧
      hh = (if hr = 0 then 12 else if 12 < hr then hr - 12 else hr) ∧
      suffix = (if 12 < hr then lit "PM" else lit "AM") ∧
      Hour.String (twoDigits hr ++ lit ":" ++ mm)
        = .ok (twoDigits hh ++ lit ":" ++ mm ++ lit " " ++ suffix)) ∧
    (hr = 0 → Hour.String (twoDigits hr ++ lit ":" ++ mm) = .ok (lit "12:" ++ mm ++ lit " AM")) ∧
    (13 ≤ hr → Hour.String (twoDigits hr ++ lit ":" ++ mm)
        = .ok (twoDigits (hr - 12) ++ lit ":" ++ mm ++ lit " PM")) := by
  have key := hourString_twoDigits hr mm hhr hmm
  refine ⟨⟨_, _, ?_, ?_, ?_, rfl, rfl, key⟩, ?_, ?_⟩
  · split_ifs <;> omega
  · split_ifs <;> omega
  · split_ifs
    · exact Or.inr rfl
    · exact Or.inl rfl
  · intro h0
    subst h0
    rw [key]
    simp [twoDigits, lit_colon, lit_space, lit_AM, lit_space_AM, lit_noon]
  · intro h13
    rw [key, if_neg (by omega), if_pos (by omega), if_pos (by omega)]
    simp [lit_colon, lit_space, lit_PM, lit_space_PM]

theorem Hour_String_renders_12_hour_clock_witness :
    58 ∉ lit "59" ∧
    Hour.String (lit "00:15") = .ok (lit "12:15 AM") ∧
    Hour.String (lit "13:05") = .ok (lit "01:05 PM") ∧
    Hour.String (lit "23:59") = .ok (lit "11:59 PM") ∧
    ∃ hh suffix, 1 ≤ hh ∧ hh ≤ 12 ∧ (suffix = lit "AM" ∨ suffix = lit "PM") ∧
      hh = (if 7 = 0 then 12 else if 12 < 7 then 7 - 12 else 7) ∧
      suffix = (if 12 < 7 then lit "PM" else lit "AM") ∧
      Hour.String (twoDigits 7 ++ lit ":" ++ lit "30")
        = .ok (twoDigits hh ++ lit ":" ++ lit "30" ++ lit " " ++ suffix) :=
  ⟨by decide,
   (Hour_String_renders_12_hour_clock 0 (lit "15") (by decide) (by decide)).2.1 rfl,
   (Hour_String_renders_12_hour_clock 13 (lit "05") (by decide) (by decide)).2.2 (by decide),
   (Hour_String_renders_12_hour_clock 23 (lit "59") (by decide) (by decide)).2.2 (by decide),
   (Hour_String_renders_12_hour_clock 7 (lit "30") (by decide) (by decide)).1⟩

/-- C10: for every minute field `MM` (without a colon) the tokens `12:MM`
and `00:MM`, which differ, both render as `12:MM AM`; every hour in 1..12
keeps its number and gets the suffix `AM`, so `Hour.String` is not
injective and noon is rendered like midnight. -/
theorem Hour_String_noon_is_midnight (mm : GoString) (hmm : 58 ∉ mm) :
    Hour.String (lit "12:" ++ mm) = .ok (lit "12:" ++ mm ++ lit " AM") ∧
    Hour.String (lit "00:" ++ mm) = .ok (lit "12:" ++ mm ++ lit " AM") ∧
    lit "12:" ++ mm ≠ lit "00:" ++ mm ∧
    ∀ hr, 1 ≤ hr → hr ≤ 12 →
      Hour.String (twoDigits hr ++ lit ":" ++ mm) = .ok (twoDigits hr ++ lit ":" ++ mm ++ lit " AM") := by
  refine ⟨?_, ?_, ?_, ?_⟩
  · have key := hourString_twoDigits 12 mm (by decide) hmm
    simpa [twoDigits, lit_colon, lit_space, lit_AM, lit_space_AM, lit_noon] using key
  · have key := hourString_twoDigits 0 mm (by decide) hmm
    simpa [twoDigits, lit_colon, lit_space, lit_AM, lit_space_AM, lit_noon, lit_midnight]
      using key
  · intro h
    have := congrArg List.head? h
    simp [lit] at this
  · intro hr h1 h12
    rw [hourString_twoDigits hr mm (by omega) hmm, if_neg (by omega), if_neg (by omega),
      if_neg (by omega)]
    simp [lit_colon, lit_space, lit_AM, lit_space_AM]

theorem Hour_String_noon_is_midnight_witness :
    58 ∉ lit "30" ∧
    Hour.String (lit "12:30") = .ok (lit "12:30 AM") ∧
    Hour.String (lit "00:30") = .ok (lit "12:30 AM") :=
  ⟨by decide, (Hour_String_noon_is_midnight (lit "30") (by decide)).1,
    (Hour_String_noon_is_midnight (lit "30") (by decide)).2.1⟩
/-! ## Day index out of range -/

/-- For a day index that passes the guard `day > 4`, `getDay` never returns
an error value: it yields a window or panics. -/
theorem getDay_guard_passed_not_err (h : HourlyWithUnits) (d : Nat) (hd : d ≤ 4)
    (e : GoError) : h.getDay d ≠ .err e := by
  unfold HourlyWithUnits.getDay
  rw [if_neg (by omega)]
  intro hc
  simp only at hc
  split at hc
  · cases hc
  · split at hc
    · cases hc
    · split at hc
      · cases hc
      · split at hc <;> cases hc

/-- C5: on a 48-sample series whose slices have no spare capacity,
`getDay(2)` does not return a range error; it panics on the slice
expression. -/
theorem getDay_two_of_48_panics :
    HourlyWithUnits.getDay
      ⟨⟨lit "iso8601", lit "C"⟩,
       ⟨⟨List.replicate 48 (lit "2024-01-01T00:00"), []⟩, ⟨List.replicate 48 0, []⟩⟩⟩ 2
      = .panic "slice bounds out of range" := by
  decide

/-! ## sanitize -/

theorem replaceLoop_of_none (old new s : GoString) (fuel : Nat)
    (h : stringsIndex old s = none) : replaceLoop old new fuel s = s := by
  cases fuel <;> simp [replaceLoop, h]

theorem replaceLoop_no_byte (c : Nat) (fuel : Nat) :
    ∀ s : GoString, s.length ≤ fuel → c ∉ replaceLoop [c] [] fuel s := by
  induction fuel with
  | zero =>
    intro s hs
    have : s = [] := List.length_eq_zero.mp (by omega)
    subst this
    simp [replaceLoop]
  | succ n ih =>
    intro s hs
    simp only [replaceLoop]
    cases hidx : stringsIndex [c] s with
    | none =>
      simp only
      intro hmem
      have : ∀ t : GoString, c ∈ t → stringsIndex [c] t ≠ none := by
        intro t
        induction t with
        | nil => simp
        | cons a t iht =>
          intro hm
          by_cases hca : c = a
          · subst hca
            simp [stringsIndex, List.isPrefixOf]
          · have hm2 : c ∈ t := by
              rcases List.mem_cons.mp hm with h | h
              · exact absurd h hca
              · exact h
            have hne : (c == a) = false := by simpa using hca
            have := iht hm2
            simp only [stringsIndex, List.isPrefixOf, hne, Bool.false_and, Bool.false_eq_true,
              if_false]
            intro hc
            cases hx : stringsIndex [c] t with
            | none => exact this hx
            | some k => simp [hx] at hc
      exact this s hmem hidx
    | some j =>
      simp only
      have hpre : ∀ (t : GoString) (k : Nat), stringsIndex [c] t = some k →
          c ∉ t.take k ∧ k < t.length := by
        intro t
        induction t with
        | nil => intro k hk; simp [stringsIndex] at hk
        | cons a t iht =>
          intro k hk
          by_cases hca : c = a
          · subst hca
            simp [stringsIndex, List.isPrefixOf] at hk
            subst hk
            simp
          · have hne : (c == a) = false := by simpa using hca
            simp only [stringsIndex, List.isPrefixOf, hne, Bool.false_and, Bool.false_eq_true,
              if_false] at hk
            cases hx : stringsIndex [c] t with
            | none => simp [hx] at hk
            | some k0 =>
              simp [hx] at hk
              subst hk
              obtain ⟨h1, h2⟩ := iht k0 hx
              refine ⟨?_, by simp; omega⟩
              simp only [List.take_succ_cons, List.mem_cons, not_or]
              exact ⟨hca, h1⟩
      obtain ⟨h1, h2⟩ := hpre s j hidx
      have hrec := ih (s.drop (j + [c].length)) (by simp; omega)
      simp only [List.append_nil, List.mem_append, not_or]
      exact ⟨h1, hrec⟩

theorem sanitize_no_newline (s : GoString) : 10 ∉ sanitize s := by
  unfold sanitize stringsReplaceAll
  simp only [show lit "\n" = [10] from rfl, show lit "" = [] from rfl, List.isEmpty_cons,
    Bool.false_eq_true, if_false]
  exact replaceLoop_no_byte 10 _ _ (le_refl _)

/-! ## sanitize, run by run -/

theorem replaceLoop_nil (o : Nat) (os new : GoString) (fuel : Nat) :
    replaceLoop (o :: os) new fuel [] = [] :=
  replaceLoop_of_none _ _ _ _ (by simp [stringsIndex])

theorem replaceLoop_skip (old new : GoString) (fuel c : Nat) (t : GoString)
    (h : old.isPrefixOf (c :: t) = false) :
    replaceLoop old new fuel (c :: t) = c :: replaceLoop old new fuel t := by
  cases fuel with
  | zero => simp [replaceLoop]
  | succ f =>
    simp only [replaceLoop, stringsIndex, h, Bool.false_eq_true, if_false]
    cases stringsIndex old t with
    | none => simp
    | some j => simp [Nat.add_right_comm]

theorem replaceLoop_hit (old new : GoString) (fuel c : Nat) (t : GoString)
    (h : old.isPrefixOf (c :: t) = true) :
    replaceLoop old new (fuel + 1) (c :: t)
      = new ++ replaceLoop old new fuel ((c :: t).drop old.length) := by
  simp [replaceLoop, stringsIndex, h]

/-- A pattern of spaces longer than the run in front of an input `T` that does
not start with a space is no prefix of it. -/
theorem not_prefix_of_short (T : GoString) (hT : T.head? ≠ some 32) (n : Nat) (pat : GoString)
    (hn : n < pat.length) (hpat : ∀ b ∈ pat, b = 32) :
    pat.isPrefixOf (List.replicate n 32 ++ T) = false := by
  induction n generalizing pat with
  | zero =>
    cases pat with
    | nil => simp at hn
    | cons p ps =>
      have hp : p = 32 := hpat p (by simp)
      subst hp
      cases T with
      | nil => simp [List.isPrefixOf]
      | cons a t =>
        have : ¬ (32 = a) := by
          intro h; apply hT; simp [h]
        simp [List.isPrefixOf, this]
  | succ n ih =>
    cases pat with
    | nil => simp at hn
    | cons p ps =>
      have := ih ps (by simpa using hn) (fun b hb => hpat b (by simp [hb]))
      simp [List.replicate_succ, List.isPrefixOf, this]

theorem replicate_pattern_nonempty (p : Nat) (hp : 0 < p) :
    ∃ os, List.replicate p 32 = 32 :: os := by
  cases p with
  | zero => omega
  | succ k => exact ⟨List.replicate k 32, rfl⟩

/-- A run shorter than the pattern is copied. -/
theorem replaceLoop_run_short (p : Nat) (new T : GoString) (fuel : Nat)
    (hT : T.head? ≠ some 32) : ∀ n, n < p →
    replaceLoop (List.replicate p 32) new fuel (List.replicate n 32 ++ T)
      = List.replicate n 32 ++ replaceLoop (List.replicate p 32) new fuel T := by
  intro n
  induction n with
  | zero => intro _; simp
  | succ n ih =>
    intro hn
    have hpre := not_prefix_of_short T hT (n + 1) (List.replicate p 32) (by simpa using hn)
      (fun b hb => (List.mem_replicate.mp hb).2)
    rw [List.replicate_succ, List.cons_append] at hpre ⊢
    rw [replaceLoop_skip _ _ _ _ _ hpre, ih (by omega)]
    rfl

/-- A run at least as long as the pattern loses one pattern to one
replacement. -/
theorem replaceLoop_run_hit (p : Nat) (hp : 0 < p) (new T : GoString) (fuel k : Nat) :
    replaceLoop (List.replicate p 32) new (fuel + 1) (List.replicate (p + k) 32 ++ T)
      = new ++ replaceLoop (List.replicate p 32) new fuel (List.replicate k 32 ++ T) := by
  have hsplit : List.replicate (p + k) 32 ++ T
      = List.replicate p 32 ++ (List.replicate k 32 ++ T) := by
    rw [List.replicate_add, List.append_assoc]
  obtain ⟨os, hos⟩ := replicate_pattern_nonempty p hp
  have hcons : List.replicate (p + k) 32 ++ T = 32 :: (os ++ (List.replicate k 32 ++ T)) := by
    rw [hsplit, hos]; rfl
  have hpre : (List.replicate p 32).isPrefixOf (32 :: (os ++ (List.replicate k 32 ++ T)))
      = true := by
    rw [← hcons, hsplit]
    simp
  rw [hcons, replaceLoop_hit _ _ _ _ _ hpre, ← hcons, hsplit]
  simp

/-- The loop of `strings.Replace` on a run of `n` spaces in front of an input
that does not start with a space. -/
theorem replaceLoop_run (p q : Nat) (hp : 0 < p) (T : GoString) (hT : T.head? ≠ some 32) :
    ∀ (n fuel : Nat), n / p ≤ fuel →
    replaceLoop (List.replicate p 32) (List.replicate q 32) fuel (List.replicate n 32 ++ T)
      = List.replicate (n / p * q + n % p) 32
        ++ replaceLoop (List.replicate p 32) (List.replicate q 32) (fuel - n / p) T := by
  intro n
  induction n using Nat.strong_induction_on with
  | _ n ih =>
    intro fuel hf
    by_cases hn : n < p
    · rw [replaceLoop_run_short p _ T fuel hT n hn]
      have h0 : n / p = 0 := Nat.div_eq_of_lt hn
      have h1 : n % p = n := Nat.mod_eq_of_lt hn
      simp [h0, h1]
    · obtain ⟨k, rfl⟩ : ∃ k, n = p + k := ⟨n - p, by omega⟩
      have hdiv : (p + k) / p = k / p + 1 := by
        rw [Nat.add_comm, Nat.add_div_right _ hp]
      have hmod : (p + k) % p = k % p := by
        rw [Nat.add_comm, Nat.add_mod_right]
      rw [hdiv] at hf
      have hf1 : 1 ≤ fuel := le_trans (Nat.le_add_left 1 _) hf
      obtain ⟨f, rfl⟩ : ∃ f, fuel = f + 1 := ⟨fuel - 1, (Nat.sub_add_cancel hf1).symm⟩
      have hf2 : k / p ≤ f := Nat.le_of_succ_le_succ hf
      have hlt : k < p + k := Nat.lt_add_of_pos_left hp
      rw [replaceLoop_run_hit p hp _ T f k, ih k hlt f hf2, hdiv, hmod]
      have hfuel : f + 1 - (k / p + 1) = f - k / p := Nat.add_sub_add_right f 1 (k / p)
      rw [hfuel, ← List.append_assoc, ← List.replicate_add]
      congr 2
      ring

/-- The loop of `strings.Replace` for a pattern of `p` spaces and a
replacement of `q` spaces rewrites every maximal run of spaces on its own. -/
theorem replaceLoop_mapRuns (p q : Nat) (hp : 0 < p) : ∀ (s : GoString) (n fuel : Nat),
    n + s.length ≤ fuel →
    replaceLoop (List.replicate p 32) (List.replicate q 32) fuel (List.replicate n 32 ++ s)
      = mapRuns (fun n => n / p * q + n % p) n s := by
  obtain ⟨os, hos⟩ := replicate_pattern_nonempty p hp
  intro s
  induction s with
  | nil =>
    intro n fuel hf
    have hdiv : n / p ≤ n := Nat.div_le_self n p
    rw [replaceLoop_run p q hp [] (by simp) n fuel (by simp at hf; omega)]
    rw [hos, replaceLoop_nil]
    simp [mapRuns]
  | cons c t ih =>
    intro n fuel hf
    simp only [List.length_cons] at hf
    by_cases hc : c = 32
    · subst hc
      have : List.replicate n 32 ++ 32 :: t = List.replicate (n + 1) 32 ++ t := by
        rw [List.replicate_succ']; simp
      rw [this, ih (n + 1) fuel (by omega)]
      simp [mapRuns]
    · have hdiv : n / p ≤ n := Nat.div_le_self n p
      rw [replaceLoop_run p q hp (c :: t) (by simpa using hc) n fuel (by omega)]
      have hpre : (List.replicate p 32).isPrefixOf (c :: t) = false := by
        rw [hos]
        have : ¬ (32 = c) := fun h => hc h.symm
        simp [List.isPrefixOf, this]
      rw [replaceLoop_skip _ _ _ _ _ hpre]
      have := ih 0 (fuel - n / p) (by simp; omega)
      simp only [List.replicate_zero, List.nil_append] at this
      rw [this]
      simp [mapRuns, hc]

theorem mapRuns_replicate (img : Nat → Nat) (k : Nat) : ∀ (m : Nat) (X : GoString),
    mapRuns img m (List.replicate k 32 ++ X) = mapRuns img (m + k) X := by
  induction k with
  | zero => intro m X; simp
  | succ k ih =>
    intro m X
    rw [List.replicate_succ, List.cons_append]
    simp only [mapRuns, if_true]
    rw [ih]
    congr 1
    omega

theorem mapRuns_comp (f g : Nat → Nat) : ∀ (s : GoString) (n : Nat),
    mapRuns g 0 (mapRuns f n s) = mapRuns (fun k => g (f k)) n s := by
  intro s
  induction s with
  | nil =>
    intro n
    have := mapRuns_replicate g (f n) 0 []
    simp only [List.append_nil, Nat.zero_add] at this
    simp only [mapRuns]
    rw [this]
    simp [mapRuns]
  | cons c t ih =>
    intro n
    by_cases hc : c = 32
    · subst hc
      simp only [mapRuns, if_true]
      exact ih (n + 1)
    · simp only [mapRuns, hc, if_false]
      rw [mapRuns_replicate g (f n) 0 _, Nat.zero_add]
      simp only [mapRuns, hc, if_false]
      rw [ih 0]

theorem replaceLoop_drops_byte (c : Nat) : ∀ (s : GoString) (fuel : Nat), s.length ≤ fuel →
    replaceLoop [c] [] fuel s = s.filter (fun b => b != c) := by
  intro s
  induction s with
  | nil => intro fuel _; rw [replaceLoop_nil]; rfl
  | cons a t ih =>
    intro fuel hf
    simp only [List.length_cons] at hf
    by_cases ha : a = c
    · subst ha
      obtain ⟨f, rfl⟩ : ∃ f, fuel = f + 1 := ⟨fuel - 1, by omega⟩
      rw [replaceLoop_hit _ _ _ _ _ (by simp [List.isPrefixOf])]
      simp only [List.length_singleton, List.drop_succ_cons, List.drop_zero, List.nil_append]
      rw [ih f (by omega)]
      simp
    · have hne : (c == a) = false := by
        simp only [beq_eq_false_iff_ne, ne_eq]
        exact fun h => ha h.symm
      rw [replaceLoop_skip _ _ _ _ _ (by simp [List.isPrefixOf, hne]), ih fuel (by omega)]
      simp [ha]

theorem filter_mapRuns (img : Nat → Nat) (himg : ∀ n, img n = runImage n) :
    ∀ (s : GoString) (n : Nat),
    (mapRuns img n s).filter (fun b => b != 10) = sanitizeByRuns n s := by
  intro s
  induction s with
  | nil =>
    intro n
    simp only [mapRuns, sanitizeByRuns, himg]
    rw [List.filter_eq_self]
    intro b hb
    rw [(List.mem_replicate.mp hb).2]
    rfl
  | cons c t ih =>
    intro n
    have hrep : (List.replicate (runImage n) 32).filter (fun b => b != 10)
        = List.replicate (runImage n) 32 := by
      rw [List.filter_eq_self]
      intro b hb
      rw [(List.mem_replicate.mp hb).2]
      rfl
    by_cases hc : c = 32
    · subst hc
      simp only [mapRuns, sanitizeByRuns, if_true]
      exact ih (n + 1)
    · simp only [mapRuns, sanitizeByRuns, hc, if_false, himg, List.filter_append, hrep]
      by_cases h10 : c = 10
      · subst h10
        simp [ih 0]
      · simp [h10, ih 0]

/-- The function `sanitize` is the run-by-run rewriting `sanitizeByRuns`. -/
theorem sanitize_eq_sanitizeByRuns (s : GoString) : sanitize s = sanitizeByRuns 0 s := by
  have h1 : stringsReplaceAll s (lit "   ") (lit " ")
      = mapRuns (fun n => n / 3 * 1 + n % 3) 0 s := by
    have := replaceLoop_mapRuns 3 1 (by decide) s 0 s.length (by simp)
    simpa [stringsReplaceAll, lit] using this
  have h2 : ∀ x : GoString, stringsReplaceAll x (lit "  ") (lit "")
      = mapRuns (fun n => n / 2 * 0 + n % 2) 0 x := by
    intro x
    have := replaceLoop_mapRuns 2 0 (by decide) x 0 x.length (by simp)
    simpa [stringsReplaceAll, lit] using this
  have h3 : ∀ x : GoString, stringsReplaceAll x (lit "\n") (lit "")
      = x.filter (fun b => b != 10) := by
    intro x
    have := replaceLoop_drops_byte 10 x x.length (le_refl _)
    simpa [stringsReplaceAll, lit] using this
  unfold sanitize
  simp only [h1, h2, h3, mapRuns_comp]
  apply filter_mapRuns
  intro n
  unfold runImage
  simp

/-- C8 (amended): for every string `s`, `sanitize(s)` is `s` with every
newline dropped and every maximal run of consecutive spaces rewritten on its
own, all other bytes kept: a single space is preserved, a run of two spaces
is removed altogether, a run of three spaces collapses to a single space (a
run of `n` spaces leaves `(n / 3 + n % 3) % 2` spaces). -/
theorem sanitize_rewrites_every_run (s : GoString) :
    sanitize s = sanitizeByRuns 0 s ∧ 10 ∉ sanitize s ∧
    runImage 1 = 1 ∧ runImage 2 = 0 ∧ runImage 3 = 1 ∧
    sanitizeByRuns 0 (lit "a b  c   d\ne") = lit "a bc de" :=
  ⟨sanitize_eq_sanitizeByRuns s, sanitize_no_newline s, rfl, rfl, rfl, by decide⟩

/-- C8 fails as stated: two words separated by a run of two spaces are
joined, not separated by one space. -/
theorem sanitize_two_spaces_joined :
    sanitize (lit "a  b") = lit "ab" ∧ sanitize (lit "a  b") ≠ lit "a b" := by
  decide
/-! ## The staleness check and the refresh cycle -/

/-- State left by a successful read of the settings file: an absent file has
been created empty. -/
theorem getSettingsFileBytes_healthy (st : State) (hh : st.disk.healthy) :
    getSettingsFileBytes st =
      (.ok (st.disk.file.getD []),
       { st with disk := { st.disk with file := some (st.disk.file.getD []) } }) := by
  obtain ⟨⟨file, o, c, r, cl, rm, w⟩, cr, vc, wr⟩ := st
  obtain ⟨h1, h2, h3, h4, h5, h6⟩ := hh
  simp only at h1 h2 h3 h4 h5 h6
  subst h1 h2 h3 h4 h5 h6
  cases file <;> simp [getSettingsFileBytes]

theorem readSettingsFile_healthy (st : State) (hh : st.disk.healthy) :
    readSettingsFile st =
      (.ok (convertBytesToPayload (st.disk.file.getD [])),
       { st with disk := { st.disk with file := some (st.disk.file.getD []) } }) := by
  unfold readSettingsFile
  rw [getSettingsFileBytes_healthy st hh]

theorem readSettingsFile_present (st : State) (hh : st.disk.healthy) (c : GoString)
    (hf : st.disk.file = some c) :
    readSettingsFile st = (.ok (convertBytesToPayload c), st) := by
  rw [readSettingsFile_healthy st hh]
  obtain ⟨⟨file, o, c1, r, cl, rm, w⟩, cr, vc, wr⟩ := st
  simp only at hf
  subst hf
  rfl

/-- C1: provided the settings file can be read, `checkIfNeedGetUFC` returns
true with no error when `Atoi` rejects the record's time stamp (the empty
first-run record included); otherwise it returns true when the clock reading
is at or past `staleAt` and false when it is before `staleAt`, again with no
error. -/
theorem checkIfNeedGetUFC_staleness (env : Env) (ufc : event) (st st1 : State) (p : payload)
    (hread : readSettingsFile st = (.ok p, st1)) :
    (∀ e, Atoi ufc.Timestamp = .error e → checkIfNeedGetUFC env ufc st = (.ok true, st1)) ∧
    (∀ staleAt, Atoi ufc.Timestamp = .ok staleAt →
      (env.clock st1.clockReads ≥ staleAt → (checkIfNeedGetUFC env ufc st).1 = .ok true) ∧
      (env.clock st1.clockReads < staleAt → (checkIfNeedGetUFC env ufc st).1 = .ok false)) ∧
    checkIfNeedGetUFC env event.zero st = (.ok true, st1) := by
  refine ⟨?_, ?_, ?_⟩
  · intro e he
    unfold checkIfNeedGetUFC
    simp only [hread, he]
  · intro ts hts
    constructor
    · intro hge
      unfold checkIfNeedGetUFC
      simp only [hread, hts]
      rw [if_neg (by omega)]
    · intro hlt
      unfold checkIfNeedGetUFC
      simp only [hread, hts]
      rw [if_pos hlt]
  · unfold checkIfNeedGetUFC
    simp only [hread]
    rfl
theorem checkIfNeedGetUFC_staleness_witness :
    readSettingsFile (startOn emptyDisk)
        = (.ok payload.zero, startOn { emptyDisk with file := some [] }) ∧
    (checkIfNeedGetUFC (constEnv 100 (visitWith [])) ⟨[], [], [], [], lit "99"⟩
        (startOn emptyDisk)).1 = .ok true ∧
    (checkIfNeedGetUFC (constEnv 100 (visitWith [])) ⟨[], [], [], [], lit "101"⟩
        (startOn emptyDisk)).1 = .ok false :=
  ⟨by decide,
   ((checkIfNeedGetUFC_staleness (constEnv 100 (visitWith [])) ⟨[], [], [], [], lit "99"⟩
      (startOn emptyDisk) (startOn { emptyDisk with file := some [] }) payload.zero
      (by decide)).2.1 99 rfl).1 (by decide),
   ((checkIfNeedGetUFC_staleness (constEnv 100 (visitWith [])) ⟨[], [], [], [], lit "101"⟩
      (startOn emptyDisk) (startOn { emptyDisk with file := some [] }) payload.zero
      (by decide)).2.1 101 rfl).2 (by decide)⟩

theorem checkIfNeedGetUFC_fresh (env : Env) (ufc : event) (st : State) (c : GoString)
    (ts : Int) (hh : st.disk.healthy) (hf : st.disk.file = some c)
    (hts : Atoi ufc.Timestamp = .ok ts) (hnow : env.clock st.clockReads < ts) :
    checkIfNeedGetUFC env ufc st = (.ok false, { st with clockReads := st.clockReads + 1 }) := by
  unfold checkIfNeedGetUFC
  simp only [readSettingsFile_present st hh c hf, hts]
  rw [if_pos hnow]

theorem checkIfNeedGetUFC_stale (env : Env) (ufc : event) (st : State)
    (hh : st.disk.healthy)
    (hstale : ∀ ts, Atoi ufc.Timestamp = .ok ts → ts ≤ env.clock st.clockReads) :
    ∃ k, checkIfNeedGetUFC env ufc st =
      (.ok true, { st with disk := { st.disk with file := some (st.disk.file.getD []) },
                           clockReads := st.clockReads + k }) := by
  unfold checkIfNeedGetUFC
  simp only [readSettingsFile_healthy st hh]
  cases hts : Atoi ufc.Timestamp with
  | error e => exact ⟨0, by simp⟩
  | ok ts =>
    refine ⟨1, ?_⟩
    have := hstale ts hts
    simp only
    rw [if_neg (by omega)]

/-- On a fresh record `getUFCDetails` returns it after one clock reading and
nothing else; the scraper is not consulted. -/
theorem getUFCDetails_fresh (env : Env) (st : State) (c : GoString) (staleAt : Int)
    (hh : st.disk.healthy) (hf : st.disk.file = some c)
    (hts : Atoi (convertBytesToPayload c).UFC.Timestamp = .ok staleAt)
    (hnow : env.clock st.clockReads < staleAt) :
    getUFCDetails env st =
      (.ok (convertBytesToPayload c).UFC, { st with clockReads := st.clockReads + 1 }) := by
  unfold getUFCDetails
  simp only [readSettingsFile_present st hh c hf]
  rw [checkIfNeedGetUFC_fresh env _ st c staleAt hh hf hts hnow]
  simp

theorem DecodeRune_ascii (c : Nat) (rest : GoString) (h : c < 0x80) :
    DecodeRune (c :: rest) = (c, 1) := by
  simp [DecodeRune, h]

theorem isCont_iff (b : Nat) : isCont b = true ↔ 0x80 ≤ b ∧ b ≤ 0xBF := by
  simp [isCont]

theorem EncodeRune_two (c d : Nat) (h1 : 0xC2 ≤ c) (h2 : c < 0xE0) (h3 : 0x80 ≤ d)
    (h4 : d ≤ 0xBF) : EncodeRune ((c % 32) * 64 + d % 64) = [c, d] := by
  unfold EncodeRune
  rw [if_neg (by omega), if_pos (by omega)]
  congr 1
  · omega
  · congr 1
    omega

theorem EncodeRune_three (c d e : Nat) (h1 : 0xE0 ≤ c) (h2 : c < 0xF0)
    (h3 : (if c = 0xE0 then 0xA0 else 0x80) ≤ d) (h4 : d ≤ (if c = 0xED then 0x9F else 0xBF))
    (h5 : 0x80 ≤ e) (h6 : e ≤ 0xBF) :
    EncodeRune ((c % 16) * 4096 + (d % 64) * 64 + e % 64) = [c, d, e] := by
  have h3' : 0x80 ≤ d := by split at h3 <;> omega
  have h4' : d ≤ 0xBF := by split at h4 <;> omega
  have hE0 : c = 0xE0 → 0xA0 ≤ d := by intro h; rw [if_pos h] at h3; exact h3
  have hED : c = 0xED → d ≤ 0x9F := by intro h; rw [if_pos h] at h4; exact h4
  unfold EncodeRune
  rw [if_neg (by omega), if_neg (by omega)]
  have hs : ¬ ((((c % 16) * 4096 + (d % 64) * 64 + e % 64 > 0x10FFFF) ||
      (0xD800 ≤ (c % 16) * 4096 + (d % 64) * 64 + e % 64 &&
        (c % 16) * 4096 + (d % 64) * 64 + e % 64 ≤ 0xDFFF)) = true) := by
    simp only [Bool.or_eq_true, Bool.and_eq_true, decide_eq_true_eq]
    omega
  rw [if_neg hs, if_pos (by omega)]
  congr 1
  · omega
  · congr 1
    · omega
    · congr 1
      omega

theorem EncodeRune_four (c d e f : Nat) (h1 : 0xF0 ≤ c) (h2 : c < 0xF5)
    (h3 : (if c = 0xF0 then 0x90 else 0x80) ≤ d) (h4 : d ≤ (if c = 0xF4 then 0x8F else 0xBF))
    (h5 : 0x80 ≤ e) (h6 : e ≤ 0xBF) (h7 : 0x80 ≤ f) (h8 : f ≤ 0xBF) :
    EncodeRune ((c % 8) * 262144 + (d % 64) * 4096 + (e % 64) * 64 + f % 64) = [c, d, e, f] := by
  have h3' : 0x80 ≤ d := by split at h3 <;> omega
  have h4' : d ≤ 0xBF := by split at h4 <;> omega
  have hF0 : c = 0xF0 → 0x90 ≤ d := by intro h; rw [if_pos h] at h3; exact h3
  have hF4 : c = 0xF4 → d ≤ 0x8F := by intro h; rw [if_pos h] at h4; exact h4
  unfold EncodeRune
  rw [if_neg (by omega), if_neg (by omega)]
  have hs : ¬ ((((c % 8) * 262144 + (d % 64) * 4096 + (e % 64) * 64 + f % 64 > 0x10FFFF) ||
      (0xD800 ≤ (c % 8) * 262144 + (d % 64) * 4096 + (e % 64) * 64 + f % 64 &&
        (c % 8) * 262144 + (d % 64) * 4096 + (e % 64) * 64 + f % 64 ≤ 0xDFFF)) = true) := by
    simp only [Bool.or_eq_true, Bool.and_eq_true, decide_eq_true_eq]
    omega
  rw [if_neg hs, if_neg (by omega)]
  congr 1
  · omega
  · congr 1
    · omega
    · congr 1
      · omega
      · congr 1
        omega
/-- Shape of a multi-byte decoding: the bytes consumed, all at least `0x80`,
are re-produced by `EncodeRune`, and nothing behind them is looked at. -/
theorem DecodeRune_multibyte (c : Nat) (rest : GoString) (hc : 0x80 ≤ c)
    (hv : ¬ ((DecodeRune (c :: rest)).1 = RuneError ∧ (DecodeRune (c :: rest)).2 = 1)) :
    ∃ pre tail, c :: rest = pre ++ tail ∧ pre.length = (DecodeRune (c :: rest)).2 ∧
      2 ≤ pre.length ∧ pre.length ≤ 4 ∧ (∀ b ∈ pre, 0x80 ≤ b) ∧
      EncodeRune (DecodeRune (c :: rest)).1 = pre ∧
      ∀ y, DecodeRune (pre ++ y) = DecodeRune (c :: rest) := by
  have hc0 : ¬ c < 0x80 := by omega
  by_cases h1 : c < 0xC2
  · exfalso; apply hv; simp [DecodeRune, hc0, h1]
  by_cases h2 : c < 0xE0
  · rcases rest with _ | ⟨d, t⟩
    · exfalso; apply hv; simp [DecodeRune, hc0, h1, h2]
    · by_cases hd : isCont d = true
      · have hd' := (isCont_iff d).mp hd
        have hdec : ∀ y : GoString, DecodeRune (c :: d :: y) = ((c % 32) * 64 + d % 64, 2) := by
          intro y; simp [DecodeRune, hc0, h1, h2, hd]
        refine ⟨[c, d], t, rfl, ?_, by simp, by simp, ?_, ?_, ?_⟩
        · rw [hdec]; rfl
        · intro b hb
          simp only [List.mem_cons, List.mem_singleton, List.not_mem_nil, or_false] at hb
          rcases hb with rfl | rfl <;> omega
        · rw [hdec]; exact EncodeRune_two c d (by omega) h2 hd'.1 hd'.2
        · intro y; rw [hdec]; exact hdec y
      · exfalso; apply hv; simp [DecodeRune, hc0, h1, h2, hd]
  by_cases h3 : c < 0xF0
  · rcases rest with _ | ⟨d, _ | ⟨e, t⟩⟩
    · exfalso; apply hv; simp [DecodeRune, hc0, h1, h2, h3]
    · exfalso; apply hv; simp [DecodeRune, hc0, h1, h2, h3]
    · by_cases hlo : d < (if c = 0xE0 then 0xA0 else 0x80)
      · exfalso; apply hv; simp [DecodeRune, hc0, h1, h2, h3, hlo]
      by_cases hhi : (if c = 0xED then 0x9F else 0xBF) < d
      · exfalso; apply hv; simp [DecodeRune, hc0, h1, h2, h3, hlo, hhi]
      by_cases he : isCont e = true
      · have he' := (isCont_iff e).mp he
        have hdec : ∀ y : GoString, DecodeRune (c :: d :: e :: y)
            = ((c % 16) * 4096 + (d % 64) * 64 + e % 64, 3) := by
          intro y; simp [DecodeRune, hc0, h1, h2, h3, hlo, hhi, he]
        have hd80 : 0x80 ≤ d := by split at hlo <;> omega
        refine ⟨[c, d, e], t, rfl, ?_, by simp, by simp, ?_, ?_, ?_⟩
        · rw [hdec]; rfl
        · intro b hb
          simp only [List.mem_cons, List.mem_singleton, List.not_mem_nil, or_false] at hb
          rcases hb with rfl | rfl | rfl <;> omega
        · rw [hdec]
          exact EncodeRune_three c d e (by omega) h3 (by omega) (by omega) he'.1 he'.2
        · intro y; rw [hdec]; exact hdec y
      · exfalso; apply hv; simp [DecodeRune, hc0, h1, h2, h3, hlo, hhi, he]
  by_cases h4 : c < 0xF5
  · rcases rest with _ | ⟨d, _ | ⟨e, _ | ⟨f, t⟩⟩⟩
    · exfalso; apply hv; simp [DecodeRune, hc0, h1, h2, h3, h4]
    · exfalso; apply hv; simp [DecodeRune, hc0, h1, h2, h3, h4]
    · exfalso; apply hv; simp [DecodeRune, hc0, h1, h2, h3, h4]
    · by_cases hlo : d < (if c = 0xF0 then 0x90 else 0x80)
      · exfalso; apply hv; simp [DecodeRune, hc0, h1, h2, h3, h4, hlo]
      by_cases hhi : (if c = 0xF4 then 0x8F else 0xBF) < d
      · exfalso; apply hv; simp [DecodeRune, hc0, h1, h2, h3, h4, hlo, hhi]
      by_cases he : isCont e = true
      · by_cases hf : isCont f = true
        · have he' := (isCont_iff e).mp he
          have hf' := (isCont_iff f).mp hf
          have hdec : ∀ y : GoString, DecodeRune (c :: d :: e :: f :: y)
              = ((c % 8) * 262144 + (d % 64) * 4096 + (e % 64) * 64 + f % 64, 4) := by
            intro y; simp [DecodeRune, hc0, h1, h2, h3, h4, hlo, hhi, he, hf]
          have hd80 : 0x80 ≤ d := by split at hlo <;> omega
          refine ⟨[c, d, e, f], t, rfl, ?_, by simp, by simp, ?_, ?_, ?_⟩
          · rw [hdec]; rfl
          · intro b hb
            simp only [List.mem_cons, List.mem_singleton, List.not_mem_nil, or_false] at hb
            rcases hb with rfl | rfl | rfl | rfl <;> omega
          · rw [hdec]
            exact EncodeRune_four c d e f (by omega) h4 (by omega) (by omega)
              he'.1 he'.2 hf'.1 hf'.2
          · intro y; rw [hdec]; exact hdec y
        · exfalso; apply hv; simp [DecodeRune, hc0, h1, h2, h3, h4, hlo, hhi, he, hf]
      · exfalso; apply hv; simp [DecodeRune, hc0, h1, h2, h3, h4, hlo, hhi, he]
  · exfalso; apply hv; simp [DecodeRune, hc0, h1, h2, h3, h4]
theorem DecodeRune_size_pos (c : Nat) (rest : GoString) : 1 ≤ (DecodeRune (c :: rest)).2 := by
  by_cases hc : c < 0x80
  · rw [DecodeRune_ascii c rest hc]
  · by_cases hv : (DecodeRune (c :: rest)).1 = RuneError ∧ (DecodeRune (c :: rest)).2 = 1
    · omega
    · obtain ⟨pre, tail, _, hlen, h2, _⟩ := DecodeRune_multibyte c rest (by omega) hv
      omega

theorem DecodeRune_take4 (x : GoString) : DecodeRune (x.take 4) = DecodeRune x := by
  rcases x with _ | ⟨c, _ | ⟨d, _ | ⟨e, _ | ⟨f, t⟩⟩⟩⟩ <;> simp [DecodeRune]

/-- Facts about a valid multi-byte sequence at the head of `c :: rest`, in
terms of `take` and `drop`. -/
theorem DecodeRune_valid_split (c : Nat) (rest : GoString) (hc : 0x80 ≤ c)
    (hv : ¬ ((DecodeRune (c :: rest)).1 = RuneError ∧ (DecodeRune (c :: rest)).2 = 1)) :
    (∀ b ∈ (c :: rest).take (DecodeRune (c :: rest)).2, 0x80 ≤ b) ∧
    EncodeRune (DecodeRune (c :: rest)).1 = (c :: rest).take (DecodeRune (c :: rest)).2 ∧
    (∀ y, DecodeRune ((c :: rest).take (DecodeRune (c :: rest)).2 ++ y) = DecodeRune (c :: rest)) ∧
    (∀ y, ((c :: rest).take (DecodeRune (c :: rest)).2 ++ y).drop (DecodeRune (c :: rest)).2 = y) ∧
    (∃ os, (c :: rest).take (DecodeRune (c :: rest)).2 = c :: os) := by
  obtain ⟨pre, tail, hsplit, hlen, h2, h4, hhigh, henc, hdec⟩ := DecodeRune_multibyte c rest hc hv
  have htake : (c :: rest).take (DecodeRune (c :: rest)).2 = pre := by
    rw [← hlen, hsplit]; simp
  rw [htake]
  refine ⟨hhigh, henc, hdec, ?_, ?_⟩
  · intro y; rw [← hlen]; simp
  · rcases pre with _ | ⟨p, ps⟩
    · simp at h2
    · simp only [List.cons_append, List.cons.injEq] at hsplit
      exact ⟨ps, by rw [hsplit.1]⟩

/-! ## JSON strings: scanning what the encoder wrote -/

theorem isHex_hexDigit (x : Nat) (h : x < 16) : isHex (hexDigit x) = true := by
  interval_cases x <;> rfl

theorem hexVal_hexDigit (x : Nat) (h : x < 16) : hexVal (hexDigit x) = x := by
  interval_cases x <;> rfl

theorem scanString_high (pre X : GoString) (h : ∀ b ∈ pre, 0x80 ≤ b) :
    scanString (pre ++ X) = (scanString X).map (fun r => (pre ++ r.1, r.2)) := by
  unfold scanString
  induction pre with
  | nil => simp
  | cons a t ih =>
    have ha : 0x80 ≤ a := h a (by simp)
    have ht := ih (fun b hb => h b (by simp [hb]))
    simp only [List.cons_append, scanStringFrom]
    rw [if_neg (by omega), if_neg (by omega), if_neg (by omega)]
    show Option.map _ (scanStringFrom StrState.inString (t ++ X)) = _
    rw [ht]
    cases scanStringFrom .inString X <;> simp

theorem scanString_escapeAscii (b : Nat) (X : GoString) (hb : b < 0x80) :
    scanString (escapeAscii b ++ X) = (scanString X).map (fun r => (escapeAscii b ++ r.1, r.2)) := by
  have h1 := isHex_hexDigit (b / 16) (by omega)
  have h2 := isHex_hexDigit (b % 16) (by omega)
  unfold escapeAscii scanString
  split_ifs with c1 c2 c3 c4 c5 c6
  · rcases c1 with rfl | rfl <;> simp [scanStringFrom] <;>
      cases scanStringFrom .inString X <;> simp
  all_goals
    simp [scanStringFrom, h1, h2, show isHex 48 = true from rfl]
    cases scanStringFrom .inString X <;> simp

theorem scanString_safe (b : Nat) (X : GoString) (hs : htmlSafe b = true) :
    scanString (b :: X) = (scanString X).map (fun r => (b :: r.1, r.2)) := by
  simp only [htmlSafe, Bool.and_eq_true, decide_eq_true_eq, bne_iff_ne, ne_eq] at hs
  simp only [scanString, scanStringFrom]
  rw [if_neg (by omega), if_neg (by omega), if_neg (by omega)]

theorem scanString_step (b : Nat) (rest X : GoString) :
    scanString ((appendStringStep b rest).1 ++ X)
      = (scanString X).map (fun r => ((appendStringStep b rest).1 ++ r.1, r.2)) := by
  unfold appendStringStep
  by_cases hb : b < 0x80
  · simp only [hb, if_true]
    by_cases hs : htmlSafe b = true
    · simp only [hs, if_true]
      exact scanString_safe b X hs
    · simp only [hs, Bool.false_eq_true, if_false]
      exact scanString_escapeAscii b X hb
  · simp only [hb, if_false, DecodeRune_take4]
    by_cases hv : (DecodeRune (b :: rest)).1 = RuneError ∧ (DecodeRune (b :: rest)).2 = 1
    · simp only [hv, and_self, if_true]
      simp [scanString, scanStringFrom, show isHex 102 = true from rfl,
        show isHex 100 = true from rfl]
      cases scanStringFrom .inString X <;> simp
    · simp only [hv, if_false]
      by_cases hls : (DecodeRune (b :: rest)).1 = 0x2028 ∨ (DecodeRune (b :: rest)).1 = 0x2029
      · simp only [hls, if_true]
        have := isHex_hexDigit ((DecodeRune (b :: rest)).1 % 16) (by omega)
        simp [scanString, scanStringFrom, this, show isHex 50 = true from rfl,
          show isHex 48 = true from rfl]
        cases scanStringFrom .inString X <;> simp
      · simp only [hls, if_false]
        exact scanString_high _ X (DecodeRune_valid_split b rest (by omega) hv).1

theorem scanString_appendStringLoop (n : Nat) (s rest : GoString) :
    scanString (appendStringLoop n s ++ 34 :: rest) = some (appendStringLoop n s, rest) := by
  induction n generalizing s with
  | zero => simp [appendStringLoop, scanString, scanStringFrom]
  | succ n ih =>
    cases s with
    | nil => simp [appendStringLoop, scanString, scanStringFrom]
    | cons b t =>
      simp only [appendStringLoop, List.append_assoc]
      rw [scanString_step, ih]
      simp

theorem scanString_appendString (s rest : GoString) :
    ∃ raw, appendString s ++ rest = 34 :: (raw ++ 34 :: rest) ∧
      scanString (raw ++ 34 :: rest) = some (raw, rest) ∧ raw = appendStringLoop s.length s :=
  ⟨appendStringLoop s.length s, by simp [appendString],
    scanString_appendStringLoop _ _ _, rfl⟩
/-! ## JSON strings: unquoting what the encoder wrote -/

theorem appendStringStep_left (b : Nat) (rest : GoString) :
    (appendStringStep b rest).2.length ≤ rest.length := by
  have hpos := DecodeRune_size_pos b rest
  unfold appendStringStep
  simp only [DecodeRune_take4]
  split_ifs <;> simp <;> omega

theorem unquoteU_left (s out left : GoString) (h : unquoteU s = some (out, left)) :
    left.length ≤ s.length - 6 := by
  unfold unquoteU at h
  cases hg : getu4 s with
  | none => simp [hg] at h
  | some rr =>
    simp only [hg] at h
    split_ifs at h <;>
      (simp only [Option.some.injEq, Prod.mk.injEq] at h; rw [← h.2]; simp; try omega)

theorem unquoteEscape_left (e : Nat) (rest1 out left : GoString)
    (h : unquoteEscape e rest1 = some (out, left)) : left.length ≤ rest1.length := by
  unfold unquoteEscape at h
  split_ifs at h
  any_goals (simp only [Option.some.injEq, Prod.mk.injEq] at h; rw [← h.2])
  have := unquoteU_left _ _ _ h
  simp only [List.length_cons] at this
  omega

theorem unquoteStep_left (c : Nat) (rest out left : GoString)
    (h : unquoteStep c rest = some (out, left)) : left.length ≤ rest.length := by
  have hpos := DecodeRune_size_pos c rest
  unfold unquoteStep at h
  split_ifs at h with h1 h2 h3
  · rcases rest with _ | ⟨e, rest1⟩
    · simp at h
    · have := unquoteEscape_left e rest1 out left h
      simp only [List.length_cons]
      omega
  · simp only [Option.some.injEq, Prod.mk.injEq] at h; rw [← h.2]
  · simp only [Option.some.injEq, Prod.mk.injEq] at h; rw [← h.2]; simp; omega

/-- Fuel beyond the length of the input does not change `unquoteLoop`. -/
theorem unquoteLoop_fuel (n : Nat) : ∀ (m : Nat) (x : GoString), x.length ≤ n → x.length ≤ m →
    unquoteLoop n x = unquoteLoop m x := by
  induction n with
  | zero =>
    intro m x hn _
    have : x = [] := List.length_eq_zero.mp (by omega)
    subst this
    cases m <;> simp [unquoteLoop]
  | succ n ih =>
    intro m x hn hm
    cases x with
    | nil => cases m <;> simp [unquoteLoop]
    | cons c rest =>
      cases m with
      | zero => simp at hm
      | succ m =>
        simp only [unquoteLoop]
        cases hs : unquoteStep c rest with
        | none => rfl
        | some r =>
          obtain ⟨out, left⟩ := r
          have hl := unquoteStep_left c rest out left hs
          simp only [List.length_cons] at hn hm
          simp only
          rw [ih m left (by omega) (by omega)]

theorem coerceUTF8_ascii (fuel b : Nat) (rest : GoString) (hb : b < 0x80) :
    coerceUTF8 (fuel + 1) (b :: rest) = [b] ++ coerceUTF8 fuel rest := by
  have hne : ¬ (b = RuneError ∧ True) := by
    intro h
    have := h.1
    unfold RuneError at this
    omega
  simp only [coerceUTF8, DecodeRune_ascii b rest hb]
  rw [if_neg hne]
  simp

theorem unquoteStep_escapeAscii (b : Nat) (X : GoString) (hb : b < 0x80)
    (hs : htmlSafe b = false) :
    ∃ os, escapeAscii b = 92 :: os ∧ unquoteStep 92 (os ++ X) = some ([b], X) := by
  have h1 := isHex_hexDigit (b / 16) (by omega)
  have h2 := isHex_hexDigit (b % 16) (by omega)
  have v1 := hexVal_hexDigit (b / 16) (by omega)
  have v2 := hexVal_hexDigit (b % 16) (by omega)
  unfold escapeAscii
  split_ifs with c1 c2 c3 c4 c5 c6
  · refine ⟨[b], rfl, ?_⟩
    rcases c1 with rfl | rfl <;> simp [unquoteStep, unquoteEscape]
  · subst c2; exact ⟨[98], rfl, by simp [unquoteStep, unquoteEscape]⟩
  · subst c3; exact ⟨[102], rfl, by simp [unquoteStep, unquoteEscape]⟩
  · subst c4; exact ⟨[110], rfl, by simp [unquoteStep, unquoteEscape]⟩
  · subst c5; exact ⟨[114], rfl, by simp [unquoteStep, unquoteEscape]⟩
  · subst c6; exact ⟨[116], rfl, by simp [unquoteStep, unquoteEscape]⟩
  · refine ⟨[117, 48, 48, hexDigit (b / 16), hexDigit (b % 16)], rfl, ?_⟩
    have hg : getu4 (92 :: 117 :: 48 :: 48 :: hexDigit (b / 16) :: hexDigit (b % 16) :: X)
        = some b := by
      simp only [getu4, h1, h2, show isHex 48 = true from rfl, Bool.and_self, if_true, v1, v2,
        show hexVal 48 = 0 from rfl, Option.some.injEq]
      omega
    have henc : EncodeRune b = [b] := by simp [EncodeRune, hb]
    simp only [unquoteStep, if_true, List.cons_append, List.nil_append, unquoteEscape]
    simp only [show ¬ ((117 : Nat) = 34 ∨ (117 : Nat) = 92 ∨ (117 : Nat) = 47 ∨ (117 : Nat) = 39)
      from by decide, if_false, show ¬ ((117 : Nat) = 98) from by decide,
      show ¬ ((117 : Nat) = 102) from by decide, show ¬ ((117 : Nat) = 110) from by decide,
      show ¬ ((117 : Nat) = 114) from by decide, show ¬ ((117 : Nat) = 116) from by decide,
      if_true, unquoteU, hg]
    rw [if_neg (by omega), henc]
    simp

theorem appendStringStep_high (b : Nat) (rest : GoString) (hb : ¬ b < 0x80) :
    appendStringStep b rest =
      if (DecodeRune (b :: rest)).1 = RuneError ∧ (DecodeRune (b :: rest)).2 = 1 then
        ([92, 117, 102, 102, 102, 100], rest)
      else if (DecodeRune (b :: rest)).1 = 0x2028 ∨ (DecodeRune (b :: rest)).1 = 0x2029 then
        ([92, 117, 50, 48, 50, hexDigit ((DecodeRune (b :: rest)).1 % 16)],
          (b :: rest).drop (DecodeRune (b :: rest)).2)
      else
        ((b :: rest).take (DecodeRune (b :: rest)).2,
          (b :: rest).drop (DecodeRune (b :: rest)).2) := by
  unfold appendStringStep
  rw [DecodeRune_take4]
  simp only [hb, if_false]

theorem coerceUTF8_cons (fuel b : Nat) (rest : GoString) :
    coerceUTF8 (fuel + 1) (b :: rest) =
      if (DecodeRune (b :: rest)).1 = RuneError ∧ (DecodeRune (b :: rest)).2 = 1 then
        [0xEF, 0xBF, 0xBD] ++ coerceUTF8 fuel rest
      else (b :: rest).take (DecodeRune (b :: rest)).2
        ++ coerceUTF8 fuel ((b :: rest).drop (DecodeRune (b :: rest)).2) := rfl

/-- What one encoder iteration writes is undone by one unquoting iteration,
up to the coercion of invalid UTF-8. -/
theorem unquoteStep_appendStringStep (b : Nat) (rest X : GoString) :
    ∃ o os chunk, (appendStringStep b rest).1 = o :: os ∧
      unquoteStep o (os ++ X) = some (chunk, X) ∧
      ∀ fuel, coerceUTF8 (fuel + 1) (b :: rest)
        = chunk ++ coerceUTF8 fuel (appendStringStep b rest).2 := by
  by_cases hb : b < 0x80
  · by_cases hs : htmlSafe b = true
    · refine ⟨b, [], [b], by simp [appendStringStep, hb, hs], ?_, ?_⟩
      · simp only [htmlSafe, Bool.and_eq_true, decide_eq_true_eq, bne_iff_ne, ne_eq] at hs
        simp only [unquoteStep, List.nil_append]
        rw [if_neg (by omega), if_neg (by omega), if_pos hb]
      · intro fuel
        simp [appendStringStep, hb, coerceUTF8_ascii fuel b rest hb]
    · have hs' : htmlSafe b = false := by simpa using hs
      obtain ⟨os, hos, hu⟩ := unquoteStep_escapeAscii b X hb hs'
      refine ⟨92, os, [b], by simp [appendStringStep, hb, hs', hos], hu, ?_⟩
      intro fuel
      simp [appendStringStep, hb, coerceUTF8_ascii fuel b rest hb]
  · have hb' : 0x80 ≤ b := by omega
    by_cases hv : (DecodeRune (b :: rest)).1 = RuneError ∧ (DecodeRune (b :: rest)).2 = 1
    · refine ⟨92, [117, 102, 102, 102, 100], [0xEF, 0xBF, 0xBD],
        by rw [appendStringStep_high b rest hb, if_pos hv], ?_, ?_⟩
      · have hg : getu4 (92 :: 117 :: 102 :: 102 :: 102 :: 100 :: X) = some 0xFFFD := by
          simp [getu4, show isHex 102 = true from rfl, show isHex 100 = true from rfl,
            show hexVal 102 = 15 from rfl, show hexVal 100 = 13 from rfl]
        have hE : EncodeRune 0xFFFD = [0xEF, 0xBF, 0xBD] := by decide
        simp [unquoteStep, unquoteEscape, unquoteU, hg, hE]
      · intro fuel
        rw [appendStringStep_high b rest hb, if_pos hv, coerceUTF8_cons, if_pos hv]
    · obtain ⟨hhigh, henc, hdec, hdrop, os, hos⟩ := DecodeRune_valid_split b rest hb' hv
      by_cases hls : (DecodeRune (b :: rest)).1 = 0x2028 ∨ (DecodeRune (b :: rest)).1 = 0x2029
      · refine ⟨92, [117, 50, 48, 50, hexDigit ((DecodeRune (b :: rest)).1 % 16)],
          (b :: rest).take (DecodeRune (b :: rest)).2,
          by rw [appendStringStep_high b rest hb, if_neg hv, if_pos hls], ?_, ?_⟩
        · have hx := isHex_hexDigit ((DecodeRune (b :: rest)).1 % 16) (by omega)
          have vx := hexVal_hexDigit ((DecodeRune (b :: rest)).1 % 16) (by omega)
          have hg : getu4 (92 :: 117 :: 50 :: 48 :: 50 ::
              hexDigit ((DecodeRune (b :: rest)).1 % 16) :: X)
              = some (DecodeRune (b :: rest)).1 := by
            simp only [getu4, hx, show isHex 50 = true from rfl, show isHex 48 = true from rfl,
              Bool.and_self, if_true, vx, show hexVal 50 = 2 from rfl,
              show hexVal 48 = 0 from rfl, Option.some.injEq]
            omega
          simp only [unquoteStep, if_true, List.cons_append, List.nil_append, unquoteEscape]
          simp only [show ¬ ((117 : Nat) = 34 ∨ (117 : Nat) = 92 ∨ (117 : Nat) = 47 ∨
            (117 : Nat) = 39) from by decide, if_false, show ¬ ((117 : Nat) = 98) from by decide,
            show ¬ ((117 : Nat) = 102) from by decide, show ¬ ((117 : Nat) = 110) from by decide,
            show ¬ ((117 : Nat) = 114) from by decide, show ¬ ((117 : Nat) = 116) from by decide,
            if_true, unquoteU, hg]
          rw [if_neg (by omega), henc]
          simp
        · intro fuel
          rw [appendStringStep_high b rest hb, if_neg hv, if_pos hls, coerceUTF8_cons, if_neg hv]
      · refine ⟨b, os, (b :: rest).take (DecodeRune (b :: rest)).2,
          by rw [appendStringStep_high b rest hb, if_neg hv, if_neg hls, hos], ?_, ?_⟩
        · have hd := hdec X
          have hdr := hdrop X
          rw [hos] at hd hdr
          simp only [List.cons_append] at hd hdr
          simp only [unquoteStep]
          rw [if_neg (by omega), if_neg (by omega), if_neg (by omega)]
          simp only [hd, hdr, henc]
        · intro fuel
          rw [appendStringStep_high b rest hb, if_neg hv, if_neg hls, coerceUTF8_cons, if_neg hv]

theorem appendStringLoop_cons (n b : Nat) (rest : GoString) :
    appendStringLoop (n + 1) (b :: rest)
      = (appendStringStep b rest).1 ++ appendStringLoop n (appendStringStep b rest).2 := rfl

/-- The second loop of `unquoteBytes` turns what the encoder wrote for `s`
back into `s`, coerced to valid UTF-8. -/
theorem unquoteLoop_appendStringLoop (n : Nat) : ∀ (s : GoString), s.length ≤ n →
    ∀ fuel, (appendStringLoop n s).length ≤ fuel →
      unquoteLoop fuel (appendStringLoop n s) = some (coerceUTF8 n s) := by
  induction n with
  | zero =>
    intro s hs fuel _
    have : s = [] := List.length_eq_zero.mp (by omega)
    subst this
    cases fuel <;> simp [appendStringLoop, unquoteLoop, coerceUTF8]
  | succ n ih =>
    intro s hs fuel hf
    cases s with
    | nil => cases fuel <;> simp [appendStringLoop, unquoteLoop, coerceUTF8]
    | cons b rest =>
      obtain ⟨o, os, chunk, hout, hstep, hco⟩ :=
        unquoteStep_appendStringStep b rest (appendStringLoop n (appendStringStep b rest).2)
      have hleft := appendStringStep_left b rest
      simp only [List.length_cons] at hs
      rw [appendStringLoop_cons, hout] at hf ⊢
      simp only [List.cons_append, List.length_cons, List.length_append] at hf ⊢
      cases fuel with
      | zero => omega
      | succ f =>
        simp only [unquoteLoop, hstep]
        rw [ih _ (by omega) f (by omega), hco n]
        simp
theorem unquoteStep_of_plainStep (c k : Nat) (rest : GoString)
    (h : plainStep c rest = some k) :
    unquoteStep c rest = some ((c :: rest).take k, (c :: rest).drop k) ∧ 1 ≤ k := by
  unfold plainStep at h
  simp only at h
  split_ifs at h with h1 h2 h3
  · simp only [Option.some.injEq] at h
    subst h
    refine ⟨?_, le_refl _⟩
    unfold unquoteStep
    rw [if_neg (by omega), if_neg (by omega), if_pos h2]
    simp
  · simp only [Option.some.injEq] at h
    have hsplit := DecodeRune_valid_split c rest (by omega) h3
    have hpos := DecodeRune_size_pos c rest
    subst h
    refine ⟨?_, hpos⟩
    unfold unquoteStep
    rw [if_neg (by omega), if_neg (by omega), if_neg h2]
    simp only [hsplit.2.1]

/-- The second loop of `unquoteBytes` copies the plain prefix unchanged. -/
theorem unquoteLoop_plainPrefix (n : Nat) : ∀ (x : GoString), x.length ≤ n →
    unquoteLoop n x
      = (unquoteLoop n (x.drop (plainPrefix n x))).map (x.take (plainPrefix n x) ++ ·) := by
  induction n with
  | zero =>
    intro x hx
    have : x = [] := List.length_eq_zero.mp (by omega)
    subst this
    simp [plainPrefix, unquoteLoop]
  | succ n ih =>
    intro x hx
    cases x with
    | nil => simp [plainPrefix, unquoteLoop]
    | cons c rest =>
      simp only [List.length_cons] at hx
      cases hp : plainStep c rest with
      | none =>
        simp only [plainPrefix, hp, List.drop_zero, List.take_zero, List.nil_append]
        cases unquoteLoop (n + 1) (c :: rest) <;> simp
      | some k =>
        obtain ⟨hstep, hk⟩ := unquoteStep_of_plainStep c k rest hp
        have hlen : ((c :: rest).drop k).length ≤ n := by
          simp only [List.length_drop, List.length_cons]; omega
        simp only [plainPrefix, hp]
        rw [← List.drop_drop, List.take_add]
        have hfuel := unquoteLoop_fuel (n + 1) n
          (List.drop (plainPrefix n (List.drop k (c :: rest))) (List.drop k (c :: rest)))
          (by simp only [List.length_drop, List.length_cons]; omega)
          (by simp only [List.length_drop, List.length_cons]; omega)
        rw [hfuel]
        conv_lhs => rw [unquoteLoop]
        simp only [hstep]
        rw [ih _ hlen]
        cases unquoteLoop n
          (List.drop (plainPrefix n (List.drop k (c :: rest))) (List.drop k (c :: rest))) <;> simp

/-- The function `unquoteBytes` is its second loop run on the whole literal. -/
theorem unquoteBytes_eq_loop (x : GoString) : unquoteBytes x = unquoteLoop x.length x := by
  unfold unquoteBytes
  simp only
  rw [unquoteLoop_plainPrefix x.length x (le_refl _)]
  by_cases hr : plainPrefix x.length x = x.length
  · rw [if_pos hr, hr]
    simp [unquoteLoop]
  · rw [if_neg hr]

theorem unquoteBytes_appendStringLoop (s : GoString) :
    unquoteBytes (appendStringLoop s.length s) = some (coerceUTF8 s.length s) := by
  rw [unquoteBytes_eq_loop]
  exact unquoteLoop_appendStringLoop s.length s (le_refl _) _ (le_refl _)

theorem coerceUTF8_of_valid (n : Nat) : ∀ (s : GoString), validUTF8 n s = true →
    coerceUTF8 n s = s := by
  induction n with
  | zero =>
    intro s hs
    cases s with
    | nil => simp [coerceUTF8]
    | cons c rest => simp [validUTF8] at hs
  | succ n ih =>
    intro s hs
    cases s with
    | nil => simp [coerceUTF8]
    | cons c rest =>
      rw [coerceUTF8_cons]
      simp only [validUTF8] at hs
      split_ifs at hs with hv
      rw [if_neg hv, ih _ hs]
      exact List.take_append_drop _ _
/-! ## JSON documents: reading what `json.Marshal` wrote -/

theorem skipSpace_of_not_space (c : Nat) (rest : GoString) (h : isSpace c = false) :
    skipSpace (c :: rest) = c :: rest := by
  simp [skipSpace, h]

/-- One `"key":"value",` member followed by further members. -/
theorem parseMembers_string_more (fuel depth : Nat) (key raw rest : GoString)
    (hkey : ∀ X, scanString (key ++ 34 :: X) = some (key, X))
    (hraw : ∀ X, scanString (raw ++ 34 :: X) = some (raw, X)) :
    parseMembers (fuel + 2) depth (34 :: (key ++ 34 :: 58 :: 34 :: (raw ++ 34 :: 44 :: rest)))
      = (parseMembers (fuel + 1) depth rest).map (fun r => ((key, .string raw) :: r.1, r.2)) := by
  have s34 : isSpace 34 = false := rfl
  have s58 : isSpace 58 = false := rfl
  have s44 : isSpace 44 = false := rfl
  rw [parseMembers]
  simp only [skipSpace_of_not_space _ _ s34, if_true, hkey, skipSpace_of_not_space _ _ s58]
  rw [parseValue]
  simp only [skipSpace_of_not_space _ _ s34, show ¬ ((34 : Nat) = 123) from by decide,
    show ¬ ((34 : Nat) = 91) from by decide, if_false, if_true, hraw, Option.map_some',
    skipSpace_of_not_space _ _ s44]

/-- The last `"key":"value"` member and the closing brace. -/
theorem parseMembers_string_last (fuel depth : Nat) (key raw rest : GoString)
    (hkey : ∀ X, scanString (key ++ 34 :: X) = some (key, X))
    (hraw : ∀ X, scanString (raw ++ 34 :: X) = some (raw, X)) :
    parseMembers (fuel + 2) depth (34 :: (key ++ 34 :: 58 :: 34 :: (raw ++ 34 :: 125 :: rest)))
      = some ([(key, .string raw)], rest) := by
  have s34 : isSpace 34 = false := rfl
  have s58 : isSpace 58 = false := rfl
  have s125 : isSpace 125 = false := rfl
  rw [parseMembers]
  simp only [skipSpace_of_not_space _ _ s34, if_true, hkey, skipSpace_of_not_space _ _ s58]
  rw [parseValue]
  simp only [skipSpace_of_not_space _ _ s34, show ¬ ((34 : Nat) = 123) from by decide,
    show ¬ ((34 : Nat) = 91) from by decide, if_false, if_true, hraw, Option.map_some',
    skipSpace_of_not_space _ _ s125, show ¬ ((125 : Nat) = 44) from by decide]

theorem scanString_key (key X : GoString)
    (h : ∀ b ∈ key, 32 ≤ b ∧ b ≠ 34 ∧ b ≠ 92) :
    scanString (key ++ 34 :: X) = some (key, X) := by
  unfold scanString
  induction key with
  | nil => simp [scanStringFrom]
  | cons a t ih =>
    obtain ⟨h1, h2, h3⟩ := h a (by simp)
    have := ih (fun b hb => h b (by simp [hb]))
    simp only [List.cons_append, scanStringFrom]
    rw [if_neg h2, if_neg h3, if_neg (by omega)]
    show Option.map _ (scanStringFrom StrState.inString (t ++ 34 :: X)) = _
    rw [this]
    simp

theorem scanString_raw (s X : GoString) :
    scanString (appendStringLoop s.length s ++ 34 :: X) = some (appendStringLoop s.length s, X) :=
  scanString_appendStringLoop _ _ _

/-- The five members of the inner object and its closing brace. -/
theorem parseMembers_event (k depth : Nat) (rN rT rV rD rS rest : GoString)
    (hN : ∀ X, scanString (rN ++ 34 :: X) = some (rN, X))
    (hT : ∀ X, scanString (rT ++ 34 :: X) = some (rT, X))
    (hV : ∀ X, scanString (rV ++ 34 :: X) = some (rV, X))
    (hD : ∀ X, scanString (rD ++ 34 :: X) = some (rD, X))
    (hS : ∀ X, scanString (rS ++ 34 :: X) = some (rS, X)) :
    parseMembers (k + 6) depth
      (34 :: (lit "number" ++ 34 :: 58 :: 34 :: (rN ++ 34 :: 44 ::
       34 :: (lit "title" ++ 34 :: 58 :: 34 :: (rT ++ 34 :: 44 ::
       34 :: (lit "venue" ++ 34 :: 58 :: 34 :: (rV ++ 34 :: 44 ::
       34 :: (lit "date" ++ 34 :: 58 :: 34 :: (rD ++ 34 :: 44 ::
       34 :: (lit "timestamp" ++ 34 :: 58 :: 34 :: (rS ++ 34 :: 125 :: rest)))))))))))
      = some ([(lit "number", .string rN), (lit "title", .string rT),
               (lit "venue", .string rV), (lit "date", .string rD),
               (lit "timestamp", .string rS)], rest) := by
  have kNumber : ∀ X, scanString (lit "number" ++ 34 :: X) = some (lit "number", X) :=
    fun X => scanString_key _ X (by decide)
  have kTitle : ∀ X, scanString (lit "title" ++ 34 :: X) = some (lit "title", X) :=
    fun X => scanString_key _ X (by decide)
  have kVenue : ∀ X, scanString (lit "venue" ++ 34 :: X) = some (lit "venue", X) :=
    fun X => scanString_key _ X (by decide)
  have kDate : ∀ X, scanString (lit "date" ++ 34 :: X) = some (lit "date", X) :=
    fun X => scanString_key _ X (by decide)
  have kTimestamp : ∀ X, scanString (lit "timestamp" ++ 34 :: X) = some (lit "timestamp", X) :=
    fun X => scanString_key _ X (by decide)
  rw [parseMembers_string_more (k + 4) depth _ _ _ kNumber hN,
    parseMembers_string_more (k + 3) depth _ _ _ kTitle hT,
    parseMembers_string_more (k + 2) depth _ _ _ kVenue hV,
    parseMembers_string_more (k + 1) depth _ _ _ kDate hD,
    parseMembers_string_last k depth _ _ _ kTimestamp hS]
  rfl

/-- The bytes `json.Marshal` writes, with the five string literals spelled
out. -/
theorem jsonMarshal_bytes (p : payload) :
    jsonMarshal p =
      123 :: 34 :: (lit "UFC" ++ 34 :: 58 :: 123 ::
        34 :: (lit "number" ++ 34 :: 58 :: 34 ::
          (appendStringLoop p.UFC.Number.length p.UFC.Number ++ 34 :: 44 ::
        34 :: (lit "title" ++ 34 :: 58 :: 34 ::
          (appendStringLoop p.UFC.Title.length p.UFC.Title ++ 34 :: 44 ::
        34 :: (lit "venue" ++ 34 :: 58 :: 34 ::
          (appendStringLoop p.UFC.Venue.length p.UFC.Venue ++ 34 :: 44 ::
        34 :: (lit "date" ++ 34 :: 58 :: 34 ::
          (appendStringLoop p.UFC.Date.length p.UFC.Date ++ 34 :: 44 ::
        34 :: (lit "timestamp" ++ 34 :: 58 :: 34 ::
          (appendStringLoop p.UFC.Timestamp.length p.UFC.Timestamp ++ 34 :: 125 ::
        [125]))))))))))) := by
  unfold jsonMarshal appendString
  simp [lit]

/-- Syntax tree of what `json.Marshal` wrote for `p`. -/
theorem jsonParse_jsonMarshal (p : payload) :
    jsonParse (jsonMarshal p) = some (.object [(lit "UFC", .object
        [(lit "number", .string (appendStringLoop p.UFC.Number.length p.UFC.Number)),
         (lit "title", .string (appendStringLoop p.UFC.Title.length p.UFC.Title)),
         (lit "venue", .string (appendStringLoop p.UFC.Venue.length p.UFC.Venue)),
         (lit "date", .string (appendStringLoop p.UFC.Date.length p.UFC.Date)),
         (lit "timestamp",
            .string (appendStringLoop p.UFC.Timestamp.length p.UFC.Timestamp))])]) := by
  have hlen : ∃ k, 2 * (jsonMarshal p).length + 2 = k + 6 + 1 + 1 + 1 := by
    refine ⟨2 * (jsonMarshal p).length + 2 - 9, ?_⟩
    rw [jsonMarshal_bytes]
    simp only [List.length_cons, List.length_append]
    omega
  obtain ⟨k, hk⟩ := hlen
  unfold jsonParse
  rw [hk, jsonMarshal_bytes]
  have kUFC : ∀ X, scanString (lit "UFC" ++ 34 :: X) = some (lit "UFC", X) :=
    fun X => scanString_key _ X (by decide)
  have s34 : isSpace 34 = false := rfl
  have s58 : isSpace 58 = false := rfl
  have s123 : isSpace 123 = false := rfl
  have s125 : isSpace 125 = false := rfl
  rw [parseValue]
  simp only [skipSpace_of_not_space _ _ s123, if_true, maxNestingDepth,
    show ¬ (0 ≥ 10000) from by decide, if_false, skipSpace_of_not_space _ _ s34,
    List.head?_cons, show ¬ (some (34 : Nat) = some 125) from by decide]
  rw [parseMembers]
  simp only [skipSpace_of_not_space _ _ s34, if_true, kUFC, skipSpace_of_not_space _ _ s58]
  rw [parseValue]
  simp only [skipSpace_of_not_space _ _ s123, if_true, maxNestingDepth,
    show ¬ (0 + 1 ≥ 10000) from by decide, if_false, skipSpace_of_not_space _ _ s34,
    List.head?_cons, show ¬ (some (34 : Nat) = some 125) from by decide]
  rw [parseMembers_event k (0 + 1 + 1) _ _ _ _ _ [125] (scanString_raw _) (scanString_raw _)
    (scanString_raw _) (scanString_raw _) (scanString_raw _)]
  simp [skipSpace, s125]
/-! ## Round trip through the settings file format -/

/-- Decoding of a member whose key is the field name `name` of a string
field, in terms of the lookups that precede it. -/
theorem decodeStringField_marshalled (s cur : GoString) :
    decodeStringField (.string (appendStringLoop s.length s)) cur
      = some (coerceUTF8 s.length s) := by
  unfold decodeStringField
  exact unquoteBytes_appendStringLoop s

theorem decodeEventMembers_marshalled (e cur : event) :
    decodeEventMembers
      [(lit "number", .string (appendStringLoop e.Number.length e.Number)),
       (lit "title", .string (appendStringLoop e.Title.length e.Title)),
       (lit "venue", .string (appendStringLoop e.Venue.length e.Venue)),
       (lit "date", .string (appendStringLoop e.Date.length e.Date)),
       (lit "timestamp", .string (appendStringLoop e.Timestamp.length e.Timestamp))] cur
      = some (coercePayload ⟨e⟩).UFC := by
  have uNumber : unquoteBytes (lit "number") = some (lit "number") := by decide
  have uTitle : unquoteBytes (lit "title") = some (lit "title") := by decide
  have uVenue : unquoteBytes (lit "venue") = some (lit "venue") := by decide
  have uDate : unquoteBytes (lit "date") = some (lit "date") := by decide
  have uTimestamp : unquoteBytes (lit "timestamp") = some (lit "timestamp") := by decide
  have f1 : fieldMatches (lit "number") (lit "number") = true := by decide
  have f21 : fieldMatches (lit "title") (lit "number") = false := by decide
  have f22 : fieldMatches (lit "title") (lit "title") = true := by decide
  have f31 : fieldMatches (lit "venue") (lit "number") = false := by decide
  have f32 : fieldMatches (lit "venue") (lit "title") = false := by decide
  have f33 : fieldMatches (lit "venue") (lit "venue") = true := by decide
  have f41 : fieldMatches (lit "date") (lit "number") = false := by decide
  have f42 : fieldMatches (lit "date") (lit "title") = false := by decide
  have f43 : fieldMatches (lit "date") (lit "venue") = false := by decide
  have f44 : fieldMatches (lit "date") (lit "date") = true := by decide
  have f51 : fieldMatches (lit "timestamp") (lit "number") = false := by decide
  have f52 : fieldMatches (lit "timestamp") (lit "title") = false := by decide
  have f53 : fieldMatches (lit "timestamp") (lit "venue") = false := by decide
  have f54 : fieldMatches (lit "timestamp") (lit "date") = false := by decide
  have f55 : fieldMatches (lit "timestamp") (lit "timestamp") = true := by decide
  rw [decodeEventMembers]
  simp only [uNumber, f1, if_true, decodeStringField_marshalled]
  rw [decodeEventMembers]
  simp only [uTitle, f21, f22, Bool.false_eq_true, if_false, if_true,
    decodeStringField_marshalled]
  rw [decodeEventMembers]
  simp only [uVenue, f31, f32, f33, Bool.false_eq_true, if_false, if_true,
    decodeStringField_marshalled]
  rw [decodeEventMembers]
  simp only [uDate, f41, f42, f43, f44, Bool.false_eq_true, if_false, if_true,
    decodeStringField_marshalled]
  rw [decodeEventMembers]
  simp only [uTimestamp, f51, f52, f53, f54, f55, Bool.false_eq_true, if_false, if_true,
    decodeStringField_marshalled]
  rw [decodeEventMembers]
  rfl

/-- Decoding what `json.Marshal` wrote succeeds and gives the payload back
with every field coerced to valid UTF-8. -/
theorem jsonUnmarshal_jsonMarshal (p : payload) :
    jsonUnmarshal (jsonMarshal p) payload.zero = .ok (coercePayload p) := by
  have uUFC : unquoteBytes (lit "UFC") = some (lit "UFC") := by decide
  have f0 : fieldMatches (lit "UFC") (lit "UFC") = true := by decide
  unfold jsonUnmarshal
  rw [jsonParse_jsonMarshal]
  simp only [decodePayload]
  rw [decodePayloadMembers]
  simp only [uUFC, f0, if_true, decodeEvent, decodeEventMembers_marshalled]
  rw [decodePayloadMembers]

theorem convertBytesToPayload_jsonMarshal (p : payload) :
    convertBytesToPayload (jsonMarshal p) = coercePayload p := by
  unfold convertBytesToPayload
  rw [jsonUnmarshal_jsonMarshal]

theorem coercePayload_of_valid (p : payload) (h : p.valid = true) : coercePayload p = p := by
  unfold payload.valid at h
  simp only [Bool.and_eq_true] at h
  obtain ⟨⟨⟨⟨h1, h2⟩, h3⟩, h4⟩, h5⟩ := h
  unfold coercePayload
  rw [coerceUTF8_of_valid _ _ h1, coerceUTF8_of_valid _ _ h2, coerceUTF8_of_valid _ _ h3,
    coerceUTF8_of_valid _ _ h4, coerceUTF8_of_valid _ _ h5]

/-- C9 (amended): for every payload whose five string fields are valid UTF-8
(empty strings included), decoding the bytes `json.Marshal` produces gives the
payload back, and `json.Unmarshal` reports no error. -/
theorem convertBytesToPayload_roundtrip (p : payload) (h : p.valid = true) :
    convertBytesToPayload (jsonMarshal p) = p ∧
    jsonUnmarshal (jsonMarshal p) payload.zero = .ok p := by
  constructor
  · rw [convertBytesToPayload_jsonMarshal, coercePayload_of_valid p h]
  · rw [jsonUnmarshal_jsonMarshal, coercePayload_of_valid p h]

theorem convertBytesToPayload_roundtrip_witness :
    convertBytesToPayload
        (jsonMarshal ⟨⟨lit "316", lit "A \"b\" <c>\n", [], [0xE2, 0x80, 0xA8, 0xC3, 0xA9],
          lit "1700000000"⟩⟩)
      = ⟨⟨lit "316", lit "A \"b\" <c>\n", [], [0xE2, 0x80, 0xA8, 0xC3, 0xA9],
          lit "1700000000"⟩⟩ :=
  (convertBytesToPayload_roundtrip
    ⟨⟨lit "316", lit "A \"b\" <c>\n", [], [0xE2, 0x80, 0xA8, 0xC3, 0xA9], lit "1700000000"⟩⟩
    (by decide)).1

/-- C9 fails as stated: a field that is not valid UTF-8 (the single byte
`0xFF`) comes back as the three bytes of U+FFFD. -/
theorem convertBytesToPayload_roundtrip_invalid_utf8 :
    convertBytesToPayload (jsonMarshal ⟨⟨[0xFF], [], [], [], []⟩⟩)
      = ⟨⟨[0xEF, 0xBF, 0xBD], [], [], [], []⟩⟩ ∧
    convertBytesToPayload (jsonMarshal ⟨⟨[0xFF], [], [], [], []⟩⟩)
      ≠ ⟨⟨[0xFF], [], [], [], []⟩⟩ := by
  decide
/-! ## Two consecutive refreshes -/

theorem atoiFastLoop_ascii : ∀ (s : GoString) (n m : Int), atoiFastLoop s n = some m →
    ∀ b ∈ s, b < 0x80 := by
  intro s
  induction s with
  | nil => intro _ _ _ b hb; simp at hb
  | cons a t ih =>
    intro n m h b hb
    simp only [atoiFastLoop] at h
    split_ifs at h with hd
    rcases List.mem_cons.mp hb with rfl | hb'
    · omega
    · exact ih _ _ h b hb'

theorem parseUintLoop_ascii : ∀ (s : GoString) (n v : Nat), parseUintLoop s n = .value v →
    ∀ b ∈ s, b < 0x80 := by
  intro s
  induction s with
  | nil => intro _ _ _ b hb; simp at hb
  | cons a t ih =>
    intro n v h b hb
    simp only [parseUintLoop] at h
    split_ifs at h with hd h1 h2
    rcases List.mem_cons.mp hb with rfl | hb'
    · omega
    · exact ih _ _ h b hb'

theorem ParseInt_ascii (s : GoString) (n : Int) (h : ParseInt s = .ok n) :
    ∀ b ∈ s, b < 0x80 := by
  unfold ParseInt at h
  cases s with
  | nil => simp at h
  | cons c rest =>
    simp only at h
    split at h
    · cases h
    · rename_i hne
      split at h
      · cases h
      · cases h
      · rename_i un hv
        have hd := parseUintLoop_ascii _ _ _ hv
        intro b hb
        by_cases hs : c = 43 ∨ c = 45
        · rw [if_pos hs] at hd
          rcases List.mem_cons.mp hb with rfl | hb'
          · omega
          · exact hd b hb'
        · rw [if_neg hs] at hd
          exact hd b hb

theorem Atoi_ascii (s : GoString) (n : Int) (h : Atoi s = .ok n) : ∀ b ∈ s, b < 0x80 := by
  unfold Atoi at h
  by_cases hlen : 0 < s.length ∧ s.length < 19
  · rw [if_pos hlen] at h
    cases s with
    | nil => simp at h
    | cons s0 rest =>
      simp only at h
      by_cases hs : s0 = 45 ∨ s0 = 43
      · simp only [hs, if_true, true_and] at h
        by_cases hr : rest.length < 1
        · simp [hr] at h
        · rw [if_neg hr] at h
          cases hm : atoiFastLoop rest 0 with
          | none => simp [hm] at h
          | some m =>
            have hd := atoiFastLoop_ascii _ _ _ hm
            intro b hb
            rcases List.mem_cons.mp hb with rfl | hb'
            · omega
            · exact hd b hb'
      · simp only [hs, if_false, false_and] at h
        cases hm : atoiFastLoop (s0 :: rest) 0 with
        | none => simp [hm] at h
        | some m => exact atoiFastLoop_ascii _ _ _ hm
  · rw [if_neg hlen] at h
    cases hp : ParseInt s with
    | error e => cases e <;> simp [hp] at h
    | ok m => exact ParseInt_ascii s m hp

theorem validUTF8_ascii (n : Nat) : ∀ (s : GoString), s.length ≤ n → (∀ b ∈ s, b < 0x80) →
    validUTF8 n s = true := by
  induction n with
  | zero =>
    intro s hs _
    have : s = [] := List.length_eq_zero.mp (by omega)
    subst this
    simp [validUTF8]
  | succ n ih =>
    intro s hs h
    cases s with
    | nil => simp [validUTF8]
    | cons c rest =>
      have hc : c < 0x80 := h c (by simp)
      have hne : ¬ (c = RuneError ∧ True) := by
        intro hx
        have := hx.1
        unfold RuneError at this
        omega
      simp only [validUTF8, DecodeRune_ascii c rest hc]
      rw [if_neg hne]
      simp only [List.drop_succ_cons, List.drop_zero]
      exact ih rest (by simpa using hs) (fun b hb => h b (by simp [hb]))

/-- A time stamp that `Atoi` accepts survives the round trip through the
settings file. -/
theorem coerceUTF8_of_Atoi (s : GoString) (n : Int) (h : Atoi s = .ok n) :
    coerceUTF8 s.length s = s :=
  coerceUTF8_of_valid _ _ (validUTF8_ascii _ _ (le_refl _) (Atoi_ascii s n h))
theorem writeSettingsFile_healthy (settings : payload) (st : State) (hh : st.disk.healthy) :
    writeSettingsFile settings st =
      (none, { st with disk := { st.disk with file := some (jsonMarshal settings) },
                       writes := st.writes + 1 }) := by
  obtain ⟨⟨file, o, c, r, cl, rm, w⟩, cr, vc, wr⟩ := st
  obtain ⟨h1, h2, h3, h4, h5, h6⟩ := hh
  simp only at h1 h2 h3 h4 h5 h6
  subst h1 h2 h3 h4 h5 h6
  simp [writeSettingsFile, clearSettingsFile, osWriteFile]

/-- The deferred `updateUFCDetails` for a fresh event on a healthy disk: it
writes exactly when the stored identifier differs from the event's. -/
theorem updateUFCDetails_fresh (env : Env) (ufc : event) (st : State) (c : GoString)
    (ts : Int) (hh : st.disk.healthy) (hf : st.disk.file = some c)
    (hts : Atoi ufc.Timestamp = .ok ts) (hnow : env.clock st.clockReads < ts) :
    updateUFCDetails env ufc st =
      if (convertBytesToPayload c).UFC.Number = ufc.Number then
        (.ok (), { st with clockReads := st.clockReads + 1 })
      else
        (.ok (), { st with disk := { st.disk with file := some (jsonMarshal { UFC := ufc }) },
                           clockReads := st.clockReads + 1,
                           writes := st.writes + 1 }) := by
  unfold updateUFCDetails
  rw [readSettingsFile_present st hh c hf]
  simp only
  rw [checkIfNeedGetUFC_fresh env ufc st c ts hh hf hts hnow]
  simp only [true_and]
  by_cases hn : (convertBytesToPayload c).UFC.Number = ufc.Number
  · rw [if_pos hn, if_pos hn]
  · rw [if_neg hn, if_neg hn]
    rw [writeSettingsFile_healthy _ { st with clockReads := st.clockReads + 1 } hh]

/-- The stale branch of `getUFCDetails` is `refreshStale`. -/
theorem getUFCDetails_stale_branch (env : Env) (st st1 st2 : State) (ptr : payload)
    (h1 : readSettingsFile st = (.ok ptr, st1))
    (h2 : checkIfNeedGetUFC env ptr.UFC st1 = (.ok true, st2)) :
    getUFCDetails env st = refreshStale env ptr.UFC st2 := by
  unfold getUFCDetails
  rw [h1]
  simp only
  rw [h2]
  simp only [Bool.true_eq_false, if_false]
  rfl

/-- One call of `getUFCDetails` on a stale store when the visit succeeds with
a fresh time stamp. -/
theorem getUFCDetails_stale_fetch (env : Env) (st : State) (ts : Int)
    (hh : st.disk.healthy)
    (hstale : ∀ t, Atoi st.disk.record.Timestamp = .ok t → ∀ j, t ≤ env.clock j)
    (herr : (env.visit st.visitCount (fetchUrl st.disk.record)).err = none)
    (hts : Atoi (fetchedEvent st.disk.record
      (env.visit st.visitCount (fetchUrl st.disk.record))).Timestamp = .ok ts)
    (hfresh : ∀ j, env.clock j < ts) :
    ∃ r, getUFCDetails env st =
      (.ok (fetchedEvent st.disk.record (env.visit st.visitCount (fetchUrl st.disk.record))),
       { disk := { st.disk with file := some (if st.disk.record.Number = [] then
              jsonMarshal ⟨fetchedEvent st.disk.record
                (env.visit st.visitCount (fetchUrl st.disk.record))⟩
             else st.disk.file.getD []) },
         clockReads := r,
         visitCount := st.visitCount + 1,
         writes := st.writes + (if st.disk.record.Number = [] then 1 else 0) }) := by
  obtain ⟨k, hk⟩ := checkIfNeedGetUFC_stale env st.disk.record
    { st with disk := { st.disk with file := some (st.disk.file.getD []) } } hh
    (fun t ht => hstale t ht _)
  have hup := updateUFCDetails_fresh env
    (fetchedEvent st.disk.record (env.visit st.visitCount (fetchUrl st.disk.record)))
    { disk := { st.disk with file := some (st.disk.file.getD []) },
      clockReads := st.clockReads + k, visitCount := st.visitCount + 1, writes := st.writes }
    (st.disk.file.getD []) ts hh rfl hts (hfresh _)
  have hnum : ((convertBytesToPayload (st.disk.file.getD [])).UFC.Number =
      (fetchedEvent st.disk.record
        (env.visit st.visitCount (fetchUrl st.disk.record))).Number) ↔
      ¬ st.disk.record.Number = [] := by
    show (st.disk.record.Number = _) ↔ _
    unfold fetchedEvent
    simp only
    by_cases h0 : st.disk.record.Number = []
    · simp [h0, lit]
    · simp [h0]
  refine ⟨st.clockReads + k + 1, ?_⟩
  rw [getUFCDetails_stale_branch env st _ _ (convertBytesToPayload (st.disk.file.getD []))
    (readSettingsFile_healthy st hh) hk]
  unfold refreshStale
  have hrec : (convertBytesToPayload (st.disk.file.getD [])).UFC = st.disk.record := rfl
  simp only [hrec, Option.getD_some, herr]
  simp only [Option.getD_some] at hup
  rw [hup]
  by_cases h0 : st.disk.record.Number = []
  · rw [if_neg (fun h => (hnum.mp h) h0)]
    simp only [h0, if_true]
  · rw [if_pos (hnum.mpr h0)]
    simp only [h0, if_false, Nat.add_zero]
/-- C2 (amended): on a healthy store whose record is stale at every clock
reading, with a scraper that always succeeds with a time stamp later than
every clock reading, two consecutive calls of `getUFCDetails` both succeed
and write the settings file exactly once when the stored identifier is empty
(absent or empty store), and not at all when it is non-empty. -/
theorem refreshTwice_write_count (env : Env) (st : State)
    (hh : st.disk.healthy)
    (hstale : ∀ t, Atoi st.disk.record.Timestamp = .ok t → ∀ j, t ≤ env.clock j)
    (hfetch : ∀ k url, (env.visit k url).err = none ∧
      ∃ ts, Atoi (sanitize (captured (env.visit k url)).timestamp) = .ok ts ∧
        ∀ j, env.clock j < ts) :
    (∃ e1 e2, (refreshTwice env st).1 = (.ok e1, .ok e2)) ∧
    (refreshTwice env st).2.writes
      = st.writes + (if st.disk.record.Number = [] then 1 else 0) := by
  obtain ⟨herr1, ts1, hts1, hfresh1⟩ := hfetch st.visitCount (fetchUrl st.disk.record)
  obtain ⟨r1, hcall1⟩ := getUFCDetails_stale_fetch env st ts1 hh hstale herr1 hts1 hfresh1
  unfold refreshTwice
  simp only [hcall1]
  by_cases h0 : st.disk.record.Number = []
  · simp only [h0, if_true]
    have hts : Atoi (convertBytesToPayload
        (jsonMarshal ⟨fetchedEvent st.disk.record
          (env.visit st.visitCount (fetchUrl st.disk.record))⟩)).UFC.Timestamp = .ok ts1 := by
      rw [convertBytesToPayload_jsonMarshal]
      show Atoi (coerceUTF8
        (sanitize (captured (env.visit st.visitCount (fetchUrl st.disk.record))).timestamp).length
        (sanitize (captured (env.visit st.visitCount (fetchUrl st.disk.record))).timestamp)) = _
      rw [coerceUTF8_of_Atoi _ ts1 hts1]
      exact hts1
    have hcall2 := getUFCDetails_fresh env
      { disk := { st.disk with file := some (jsonMarshal ⟨fetchedEvent st.disk.record
          (env.visit st.visitCount (fetchUrl st.disk.record))⟩) },
        clockReads := r1, visitCount := st.visitCount + 1, writes := st.writes + 1 }
      _ ts1 hh rfl hts (hfresh1 _)
    rw [hcall2]
    exact ⟨⟨_, _, rfl⟩, rfl⟩
  · simp only [h0, if_false, Nat.add_zero]
    obtain ⟨herr2, ts2, hts2, hfresh2⟩ := hfetch (st.visitCount + 1) (fetchUrl st.disk.record)
    obtain ⟨r2, hcall2⟩ := getUFCDetails_stale_fetch env
      { disk := { st.disk with file := some (st.disk.file.getD []) },
        clockReads := r1, visitCount := st.visitCount + 1, writes := st.writes }
      ts2 hh hstale herr2 hts2 hfresh2
    rw [hcall2]
    refine ⟨⟨_, _, rfl⟩, ?_⟩
    have hrec : (Disk.record { st.disk with file := some (st.disk.file.getD []) })
        = st.disk.record := rfl
    simp only [hrec, h0, if_false, Nat.add_zero]

theorem refreshTwice_write_count_witness :
    (refreshTwice (constEnv 100 (visitWith (lit "200"))) (startOn emptyDisk)).2.writes = 1 ∧
    (refreshTwice (constEnv 100 (visitWith (lit "200")))
      (startOn (diskHolding ⟨lit "316", [], [], [], lit "50"⟩))).2.writes = 0 :=
  ⟨(refreshTwice_write_count (constEnv 100 (visitWith (lit "200"))) (startOn emptyDisk)
      (by decide)
      (fun t h => by
        have herr : Atoi (startOn emptyDisk).disk.record.Timestamp
            = .error (.strconvSyntax "Atoi" []) := rfl
        rw [herr] at h
        cases h)
      (fun _ _ => ⟨rfl, 200, rfl, fun _ => show (100 : Int) < 200 by decide⟩)).2,
   (refreshTwice_write_count (constEnv 100 (visitWith (lit "200")))
      (startOn (diskHolding ⟨lit "316", [], [], [], lit "50"⟩))
      (by decide)
      (fun t h => by
        have hok : Atoi (startOn (diskHolding
            ⟨lit "316", [], [], [], lit "50"⟩)).disk.record.Timestamp = .ok 50 := rfl
        rw [hok] at h
        cases h
        intro j
        show (50 : Int) ≤ 100
        decide)
      (fun _ _ => ⟨rfl, 200, rfl, fun _ => show (100 : Int) < 200 by decide⟩)).2⟩

/-- C2 fails as stated: the store holds a stale record with identifier "316"
(time stamp 50, clock 100), the scraper succeeds with time stamp 200, and two
consecutive calls perform no write at all. -/
theorem refreshTwice_stale_store_no_write :
    Atoi (startOn (diskHolding ⟨lit "316", [], [], [], lit "50"⟩)).disk.record.Timestamp
      = .ok 50 ∧
    (refreshTwice (constEnv 100 (visitWith (lit "200")))
      (startOn (diskHolding ⟨lit "316", [], [], [], lit "50"⟩))).2.writes = 0 ∧
    (refreshTwice (constEnv 100 (visitWith (lit "200")))
      (startOn (diskHolding ⟨lit "316", [], [], [], lit "50"⟩))).2.writes ≠ 1 := by
  refine ⟨rfl, ?_, ?_⟩ <;> decide

end DailyMd
